import Mathlib

/-!
Verification development for the litejesd204b JESD204B core.

The definitions below are a shallow embedding of the Python/Migen sources:

* `litejesd204b/common.py`   — `JESD204BSettings` (field table, `set_field`,
  `get_field`, `calc_fchk`, constructor defaults) and `control_characters`.
* `litejesd204b/transport.py` — `LiteJESD204BTransportTX` / `LiteJESD204BTransportRX`
  elaboration loops, expressed as pure functions from converter words to lane
  words and back (one protocol-clock cycle).
* `litejesd204b/link.py`     — `Scrambler` / `Descrambler` (data_width = 32, the
  only width instantiated by the core) and the `ILAS` octet-table construction.
* `litejesd204b/core.py`     — the `LMFC` divider and the RX-core aggregate
  `ready`/`jsync` registers.

Machine integers are modelled as `Nat` with explicit `% 2 ^ w` truncation where
Migen truncates on assignment; Python `bytearray` cells are `Nat` values < 256;
fallible Python code (raising `ValueError`/`KeyError`/`ZeroDivisionError`)
returns `Except String`.
-/

namespace LiteJESD

/-! ## common.py : JESD204BSettings -/

/-- One row of `JESD204BSettings.FIELDS`: octet index, bit offset, field width,
and the isZeroBased flag (count fields are stored as count − 1). -/
structure FieldSpec where
  octet : Nat
  offset : Nat
  width : Nat
  is_zb : Bool
deriving DecidableEq

/-- The `JESD204BSettings.FIELDS` table, in source order. -/
def FIELDS : List (String × FieldSpec) := [
  ("ADJCNT",    ⟨1,  4, 4, false⟩),
  ("ADJDIR",    ⟨2,  6, 1, false⟩),
  ("BID",       ⟨1,  0, 4, false⟩),
  ("CF",        ⟨10, 0, 5, false⟩),
  ("CS",        ⟨7,  6, 2, false⟩),
  ("DID",       ⟨0,  0, 8, false⟩),
  ("F",         ⟨4,  0, 8, true⟩),
  ("HD",        ⟨10, 7, 1, false⟩),
  ("JESDV",     ⟨9,  5, 3, false⟩),
  ("K",         ⟨5,  0, 8, true⟩),
  ("L",         ⟨3,  0, 5, true⟩),
  ("LID",       ⟨2,  0, 5, false⟩),
  ("M",         ⟨6,  0, 8, true⟩),
  ("N",         ⟨7,  0, 5, true⟩),
  ("NP",        ⟨8,  0, 5, true⟩),
  ("PHADJ",     ⟨2,  5, 1, false⟩),
  ("S",         ⟨9,  0, 5, true⟩),
  ("SCR",       ⟨3,  7, 1, false⟩),
  ("SUBCLASSV", ⟨8,  5, 3, false⟩),
  ("RES1",      ⟨11, 0, 8, false⟩),
  ("RES2",      ⟨12, 0, 8, false⟩),
  ("FCHK",      ⟨13, 0, 8, false⟩)]

/-- `JESD204BSettings.set_field(name, val)` (with the default `encode=True`).
The settings octets are a 14-byte `bytearray`; `val` is a Python `int`, so the
count-field decrement is integer subtraction (a caller passing 0 for a count
field produces −1, which slips past the `val >= 2**width` check and then makes
the `bytearray` byte assignment raise).  The two `.error` branches mirror the
`ValueError` raised by the range check and the `ValueError` raised by the byte
assignment respectively. -/
def set_field (octets : List Nat) (name : String) (val : Int) : Except String (List Nat) :=
  match FIELDS.lookup name with
  | none => .error "KeyError"
  | some f =>
    let v : Int := if f.is_zb then val - 1 else val
    if (2 : Int) ^ f.width ≤ v then
      .error "value is larger than field width"
    else if v < 0 then
      .error "byte must be in range 0 to 256"
    else
      let mask : Nat := (2 ^ f.width - 1) <<< f.offset
      .ok (octets.set f.octet
        ((octets.getD f.octet 0 &&& (255 ^^^ mask)) ||| (v.toNat <<< f.offset)))

/-- `JESD204BSettings.get_field(name)` (with the default `decode=True`), giving
the decoded (1-based for count fields) value.  Unknown names are irrelevant to
the claims; they return 0 here. -/
def get_field (octets : List Nat) (name : String) : Nat :=
  match FIELDS.lookup name with
  | none => 0
  | some f =>
    let v := octets.getD f.octet 0 >>> f.offset &&& (2 ^ f.width - 1)
    if f.is_zb then v + 1 else v

/-- `JESD204BSettings.get_field(name, decode=False)`: the raw stored bits. -/
def get_field_raw (octets : List Nat) (name : String) : Nat :=
  match FIELDS.lookup name with
  | none => 0
  | some f => octets.getD f.octet 0 >>> f.offset &&& (2 ^ f.width - 1)

/-- The octet-updating part of `JESD204BSettings.calc_fchk`: sum either the
first 11 raw octets (`FCHK_OVER_OCTETS=True`) or the decoded values of every
field in `FIELDS` except `FCHK` itself, and store the low byte in `FCHK`.
The subsequent F-consistency sanity check in the Python source raises after
this mutation and does not alter the octets further. -/
def calc_fchk (fchkOverOctets : Bool) (octets : List Nat) : Except String (List Nat) :=
  let val : Nat :=
    if fchkOverOctets then
      (octets.take 11).sum
    else
      FIELDS.foldl (fun acc p => if p.1 = "FCHK" then acc else acc + get_field octets p.1) 0
  set_field octets "FCHK" ((val &&& 0xFF : Nat) : Int)

/-- `JESD204BSettings.__init__` without a json file: start from 14 zero octets,
set `SCR`, `JESDV` and `SUBCLASSV` to 1, then apply the caller's keyword field
values in order.  The constructor does not call `calc_fchk` (that call is
commented out in the source). -/
def mkSettings (kwargs : List (String × Int)) : Except String (List Nat) := do
  let o0 := List.replicate 14 0
  let o1 ← set_field o0 "SCR" 1
  let o2 ← set_field o1 "JESDV" 1
  let o3 ← set_field o2 "SUBCLASSV" 1
  kwargs.foldlM (fun acc kv => set_field acc kv.1 kv.2) o3

/-- Concrete settings octets with RES1 = 1 and every other octet 0, used to
separate the two checksum readings. -/
def c3octets : List Nat := [0, 0, 0, 0, 0, 0, 0, 0, 0, 0, 0, 1, 0, 0]

/-- Modelled from the spec (§3 / claim C3 wording): the checksum as the sum of
the decoded values of the non-reserved fields other than `FCHK`, i.e. with the
reserved fields `RES1` and `RES2` left out, mod 256.  This is the reading of
the claim being checked against the code's `calc_fchk`. -/
def specFchkNonReserved (octets : List Nat) : Nat :=
  (FIELDS.foldl
    (fun acc p =>
      if p.1 = "FCHK" ∨ p.1 = "RES1" ∨ p.1 = "RES2" then acc
      else acc + get_field octets p.1) 0) % 256

/-! ## common.py : control characters -/

/-- The `control_characters` dict. -/
def control_characters (name : String) : Nat :=
  if name = "R" then 0b00011100
  else if name = "A" then 0b01111100
  else if name = "Q" then 0b10011100
  else if name = "K" then 0b10111100
  else if name = "F" then 0b11111100
  else 0

/-! ## transport.py : TX / RX mapping for one protocol-clock cycle

The Migen elaboration loops of `LiteJESD204BTransportTX` / `RX` build a purely
combinational mapping; the functions below compute the same mapping on `Nat`
words.  `st.FR_CLK` is `LINK_DW // 8 // F` as computed by `calc_fchk`. -/

/-- JESD parameter bundle (decoded counts) used by the transport layer. -/
structure JesdSettings where
  L : Nat
  M : Nat
  S : Nat
  N : Nat
  NP : Nat
  F : Nat
  LINK_DW : Nat
  FR_CLK : Nat
deriving DecidableEq

/-- `nibbles_per_word = ceil(NP / 4)`. -/
def nibbles_per_word (st : JesdSettings) : Nat := (st.NP + 3) / 4

/-- `samples_per_clock = S * FR_CLK`. -/
def samples_per_clock (st : JesdSettings) : Nat := st.S * st.FR_CLK

/-- TX frame sample list for frame `f` of the cycle (`current_sample = f*S`):
for each converter `j` and sample `i`, the `N`-bit slice
`converter_data[(f*S+i)*N : (f*S+i+1)*N]`. -/
def txFrameSamples (st : JesdSettings) (conv : Nat → Nat) (f : Nat) : List Nat :=
  (List.range st.M).flatMap fun j =>
    (List.range st.S).map fun i =>
      conv j / 2 ^ ((f * st.S + i) * st.N) % 2 ^ st.N

/-- Per-word nibble list, most-significant nibble first
(`for i in reversed(range(nibbles_per_word)): word[4*i:4*(i+1)]`).
Slices beyond the word's width read as zero, as Migen clamps slices. -/
def wordNibbles (npw : Nat) (w : Nat) : List Nat :=
  ((List.range npw).reverse).map fun i => w / 2 ^ (4 * i) % 16

/-- Octet packing (`octet = Cat(frame_nibbles[2*i+1], frame_nibbles[2*i])`,
so the later nibble is the low half). A trailing odd nibble is dropped,
as `range(len//2)` does. -/
def pairOctets : List Nat → List Nat
  | a :: b :: rest => (b + 16 * a) :: pairOctets rest
  | _ => []

/-- All octets of frame `f` (TX side). -/
def txFrameOctets (st : JesdSettings) (conv : Nat → Nat) (f : Nat) : List Nat :=
  pairOctets ((txFrameSamples st conv f).flatMap (wordNibbles (nibbles_per_word st)))

/-- The octets frame `f` contributes to lane `i`:
`frame_octets[i*F : (i+1)*F]`. -/
def txFrameLaneOctets (st : JesdSettings) (conv : Nat → Nat) (f i : Nat) : List Nat :=
  ((txFrameOctets st conv f).drop (i * st.F)).take st.F

/-- Little-endian base-256 packing of an octet list (octet `j` of the list at
bits `[8*j, 8*j+8)`). -/
def packOctets : List Nat → Nat
  | [] => 0
  | o :: rest => o + 256 * packOctets rest

/-- The TX lane word for lane `i`: frame `f`'s lane octets are placed at byte
positions `current_octet + j = f*F + j`. -/
def txLane (st : JesdSettings) (conv : Nat → Nat) (i : Nat) : Nat :=
  ((List.range st.FR_CLK).map fun f =>
    packOctets (txFrameLaneOctets st conv f i) * 2 ^ (8 * (st.F * f))).sum

/-- RX: the octets of frame `f` gathered lane by lane
(`lane_data[8*(f*F+j) : 8*(f*F+j+1)]`). -/
def rxFrameOctets (st : JesdSettings) (lanes : Nat → Nat) (f : Nat) : List Nat :=
  (List.range st.L).flatMap fun i =>
    (List.range st.F).map fun j =>
      lanes i / 2 ^ (8 * (f * st.F + j)) % 256

/-- RX: each octet split into its high nibble then low nibble
(`for j in reversed(range(2)): octet[4*j:4*(j+1)]`). -/
def rxFrameNibbles (st : JesdSettings) (lanes : Nat → Nat) (f : Nat) : List Nat :=
  (rxFrameOctets st lanes f).flatMap fun o => [o / 16 % 16, o % 16]

/-- RX: reconstructed word number `t` of frame `f` (`t` in construction order
`j*S + i`).  The Python code fills each word by popping nibbles off the end of
`frame_nibbles`, so word `t` takes the reversed nibble list's block `t`, its
`k`-th pop landing at word bits `[4*k, 4*k+4)`. -/
def rxFrameWord (st : JesdSettings) (lanes : Nat → Nat) (f t : Nat) : Nat :=
  ((List.range (nibbles_per_word st)).map fun k =>
    (rxFrameNibbles st lanes f).reverse.getD (t * nibbles_per_word st + k) 0 * 2 ^ (4 * k)).sum

/-- RX: converter output word for converter `j`.  The Python code assigns
converter slices by popping `frame_samples` off the end, so target `j*S + i`
receives word `M*S − 1 − (j*S + i)`, truncated to the `N`-bit slice
`converter_data[(f*S+i)*N : (f*S+i+1)*N]`. -/
def rxConverter (st : JesdSettings) (lanes : Nat → Nat) (j : Nat) : Nat :=
  ((List.range st.FR_CLK).map fun f =>
    ((List.range st.S).map fun i =>
      rxFrameWord st lanes f (st.M * st.S - 1 - (j * st.S + i)) % 2 ^ st.N
        * 2 ^ ((f * st.S + i) * st.N)).sum).sum

/-- The claim C4 / claim C2 witness configuration:
L=2, M=2, S=1, N=16, NP=16, F=2, LINK_DW=32, FR_CLK=2. -/
def exSettings : JesdSettings := ⟨2, 2, 1, 16, 16, 2, 32, 2⟩

/-- Converter inputs for the C4 example: converter0 = 0x1234, converter1 = 0x5678. -/
def exConv : Nat → Nat := fun j => [0x1234, 0x5678].getD j 0

/-- An F-consistent configuration with N > NP (L=1, M=1, S=1, N=16, NP=8, F=1,
LINK_DW=32, FR_CLK=4): F = M*S*NP/8/L = 1, yet the transport round-trip loses
the upper sample byte. -/
def cxSettings : JesdSettings := ⟨1, 1, 1, 16, 8, 1, 32, 4⟩

/-- Converter input for the C2 counterexample. -/
def cxConv : Nat → Nat := fun j => [0x1234].getD j 0

/-! ## link.py : Scrambler / Descrambler (data_width = 32)

`swizzle` is the byte-order reversal `Cat(s[24:32], s[16:24], s[8:16], s[0:8])`.
The scrambler's combinational loop
`full = Cat(feedback, state); feedback = full[15:47] ^ full[14:46] ^ swizzle(x)`
is solved bit by bit from the top (bit `i` of `feedback` only depends on bits
`14+i` and `15+i` of `full`).  The registered outputs are
`source.data = swizzle(feedback)` and `state = full[0:15]`. -/

/-- Byte-order reversal of a 32-bit word
(`Cat(s[24:32], s[16:24], s[8:16], s[0:8])`, first argument at the LSB). -/
def swizzle (s : Nat) : Nat :=
  s / 2 ^ 24 % 2 ^ 8 + s / 2 ^ 16 % 2 ^ 8 * 2 ^ 8 + s / 2 ^ 8 % 2 ^ 8 * 2 ^ 16
    + s % 2 ^ 8 * 2 ^ 24

/-- Bit `j` of `full = Cat(low, state)` where `low` is 32 bits wide and
`state` 15 bits. -/
def fullBit (low state : Nat) (j : Nat) : Bool :=
  if j < 32 then low.testBit j else state.testBit (j - 32)

/-- Solve the scrambler's feedback bits from bit 31 down to bit `31 - k + 1`
... wait, after `k` steps bits `[32 - k, 32)` are solved:
bit `i = 31 - k` is `full[15+i] ^ full[14+i] ^ sx[i]`, and both taps land in
already-solved feedback bits or in `state`. -/
def fbAux (state sx : Nat) : Nat → Nat
  | 0 => 0
  | k + 1 =>
    let acc := fbAux state sx k
    let i := 31 - k
    if (fullBit acc state (15 + i)).xor
        ((fullBit acc state (14 + i)).xor (sx.testBit i)) then
      acc ||| 2 ^ i
    else
      acc

/-- The scrambler's 32 feedback bits given the 15-bit `state` and the already
swizzled input `sx`. -/
def scramblerFeedback (state sx : Nat) : Nat := fbAux state sx 32

/-- One octet-group step of `Scrambler` (data_width = 32): from state and raw
input word to (next state, registered output word). -/
def scramblerStep (st x : Nat) : Nat × Nat :=
  let sx := swizzle x
  let fb := scramblerFeedback st sx
  (fb % 2 ^ 15, swizzle fb)

/-- The number with bits `[0, n)` given by `f` (used for the descrambler's
non-recursive feedback vector). -/
def ofBits (f : Nat → Bool) : Nat → Nat
  | 0 => 0
  | n + 1 => ofBits f n ||| (if f n then 2 ^ n else 0)

/-- The descrambler's feedback `full[15:47] ^ full[14:46] ^ full[0:32]` where
`full = Cat(swizzle(y), state)` — non-recursive, as `full[0:32]` is the
(swizzled) input itself. -/
def descramblerFeedback (state sy : Nat) : Nat :=
  ofBits (fun i =>
    (fullBit sy state (15 + i)).xor
      ((fullBit sy state (14 + i)).xor (sy.testBit i))) 32

/-- One octet-group step of `Descrambler` (data_width = 32): next state is
`full[0:15] = swizzle(y) % 2^15`. -/
def descramblerStep (st y : Nat) : Nat × Nat :=
  let sy := swizzle y
  let fb := descramblerFeedback st sy
  (sy % 2 ^ 15, swizzle fb)

/-- Run the scrambler over a word sequence from a given state, collecting the
output words (pipeline registers only delay the outputs; the word-level
mapping is this fold). -/
def scramblerRun (st : Nat) : List Nat → List Nat
  | [] => []
  | x :: xs =>
    let p := scramblerStep st x
    p.2 :: scramblerRun p.1 xs

/-- Run the descrambler over a word sequence from a given state. -/
def descramblerRun (st : Nat) : List Nat → List Nat
  | [] => []
  | y :: ys =>
    let p := descramblerStep st y
    p.2 :: descramblerRun p.1 ys

/-! ## core.py : LMFC -/

/-- Python `int.bit_length`, fuel-based so it reduces definitionally
(`bitLenAux fuel n` is `n.bit_length()` whenever `n ≤ fuel`). -/
def bitLenAux : Nat → Nat → Nat
  | _, 0 => 0
  | 0, _ + 1 => 0
  | fuel + 1, n + 1 => bitLenAux fuel ((n + 1) / 2) + 1

/-- Migen's `bits_for(n)` for a nonnegative `n` (= `n.bit_length()`). -/
def bits_for (n : Nat) : Nat := bitLenAux n n

/-- Width of `Signal(max=lmfc_cycles)`. -/
def lmfc_width (lmfc_cycles : Nat) : Nat := bits_for (lmfc_cycles - 1)

/-- `LMFC.__init__` parameter computation:
`lmfc_cycles = int(K // FR_CLK)` (floor division, no exactness check), then
`load = load % lmfc_cycles` (a `ZeroDivisionError` when the quotient is 0),
then `Signal(max=lmfc_cycles, ...)`, whose Migen bounds check
(`max -= 1` to make the bound inclusive, then `assert min < max` with
`min = 0`) raises `AssertionError` when the quotient is 1; every quotient
of at least 2 succeeds. -/
def mkLMFC (K FR_CLK load : Nat) : Except String (Nat × Nat) :=
  let lmfc_cycles := K / FR_CLK
  if lmfc_cycles = 0 then .error "integer division or modulo by zero"
  else if lmfc_cycles = 1 then .error "AssertionError"
  else .ok (lmfc_cycles, load % lmfc_cycles)

/-- State of the LMFC divider: the counter and the two-stage jref history. -/
structure LMFCState where
  count : Nat
  jref1 : Bool
  jref2 : Bool
deriving DecidableEq

/-- One sync step of `LMFC`: `is_load = _jref & ~_jref_d`; on load the counter
takes `load`, otherwise `count + 1`, truncated to the width of
`Signal(max=lmfc_cycles)`. -/
def lmfcStep (lmfc_cycles load : Nat) (st : LMFCState) (jrefIn : Bool) : LMFCState :=
  let is_load := st.jref1 && !st.jref2
  { count := (if is_load then load else st.count + 1) % 2 ^ lmfc_width lmfc_cycles,
    jref1 := jrefIn,
    jref2 := st.jref1 }

/-- The combinational `zero` output: `count == 0`. -/
def lmfcZero (st : LMFCState) : Bool := st.count == 0

/-! ## core.py : RX core aggregate status -/

/-- Python `reduce(and_, bits)` over a nonempty list. -/
def andAll : List Bool → Bool
  | [] => true
  | b :: bs => bs.foldl (· && ·) b

/-- One `sync.jesd` step of the RX core's aggregate status registers
(`core.py` lines 333-338): `jsync` is re-registered every cycle from the AND
of the per-lane `jsync` signals, while `ready` is loaded from the AND of the
per-lane `ready` signals only when `lmfc.zero` is high and holds otherwise.
The state is the pair (aggregate jsync register, aggregate ready register). -/
def rxAggStep (linkJsync linkReady : List Bool) (zero : Bool) (st : Bool × Bool) :
    Bool × Bool :=
  (andAll linkJsync, if zero then andAll linkReady else st.2)

/-! ## link.py : ILAS octet table -/

/-- An ILAS table cell: either a data octet or a control character
(`Control(value)` in the source). -/
inductive ILASOctet where
  | data (v : Nat)
  | ctrl (v : Nat)
deriving DecidableEq

/-- Multiframe `i` (0 ≤ i < 4) of the ILAS table, `with_counter=True`:
start from the ramp `(i*octets_per_multiframe + j) & 0xff`, overwrite octet 0
with `R` and the last octet with `A`; for `i = 1` additionally overwrite octet
1 with `Q` and splice the serialized settings octets into positions
`[2, 2 + len(cfg))` (Python list-slice assignment semantics). -/
def ilasMultiframe (opm : Nat) (cfg : List Nat) (i : Nat) : List ILASOctet :=
  let mf := (List.range opm).map fun j => ILASOctet.data ((i * opm + j) % 256)
  let mf := mf.set 0 (.ctrl (control_characters "R"))
  let mf := mf.set (mf.length - 1) (.ctrl (control_characters "A"))
  if i = 1 then
    let mf := mf.set 1 (.ctrl (control_characters "Q"))
    mf.take 2 ++ cfg.map ILASOctet.data ++ mf.drop (2 + cfg.length)
  else
    mf

/-- The full ILAS octet table: the four multiframes concatenated. -/
def ilasOctets (opm : Nat) (cfg : List Nat) : List ILASOctet :=
  (List.range 4).flatMap (ilasMultiframe opm cfg)

/-- The settings octets used in the C7 counterexample: a valid configuration
with F = 1, K = 16 (so `octets_per_multiframe = 16`), namely
`JESD204BSettings(L=2, M=1, S=1, N=16, NP=16, K=16, F=1)` after `calc_fchk`
(F-consistency holds: M*S*NP/8/L = 16/16 = 1 = F). -/
def c7octets : List Nat :=
  (((mkSettings [("L", 2), ("M", 1), ("S", 1), ("N", 16), ("NP", 16),
      ("K", 16), ("F", 1)]).bind (calc_fchk false)).toOption).getD []

end LiteJESD

namespace LiteJESD

theorem testBit_byteWrite (b v off w i : Nat) (how : off + w ≤ 8) (hv : v < 2 ^ w) :
    ((b &&& (255 ^^^ ((2 ^ w - 1) <<< off))) ||| (v <<< off)).testBit i =
      if off ≤ i ∧ i < off + w then v.testBit (i - off)
      else (b.testBit i && decide (i < 8)) := by
  have h255 : (255 : Nat) = 2 ^ 8 - 1 := by norm_num
  rw [h255]
  simp only [Nat.testBit_or, Nat.testBit_and, Nat.testBit_xor, Nat.testBit_shiftLeft,
    Nat.testBit_two_pow_sub_one]
  by_cases h1 : off ≤ i
  · by_cases h2 : i < off + w
    · have hge : decide (i ≥ off) = true := by simp [h1]
      have hmb : decide (i - off < w) = true := by simp; omega
      have hi8 : decide (i < 8) = true := by simp; omega
      simp [hge, hmb, hi8, h1, h2]
    · have hge : decide (i ≥ off) = true := by simp [h1]
      have hmb : decide (i - off < w) = false := by simp; omega
      have hvb : v.testBit (i - off) = false := by
        apply Nat.testBit_lt_two_pow
        calc v < 2 ^ w := hv
          _ ≤ 2 ^ (i - off) := Nat.pow_le_pow_right (by norm_num) (by omega)
      simp [hge, hmb, hvb, h1, h2]
  · have hge : decide (i ≥ off) = false := by simp; omega
    have hi8 : decide (i < 8) = true := by simp; omega
    have : ¬ (off ≤ i ∧ i < off + w) := by omega
    simp [hge, hi8, this]

theorem byteWrite_readback (b v off w : Nat) (hv : v < 2 ^ w) (how : off + w ≤ 8) :
    ((b &&& (255 ^^^ ((2 ^ w - 1) <<< off))) ||| (v <<< off)) >>> off &&& (2 ^ w - 1) = v := by
  apply Nat.eq_of_testBit_eq
  intro i
  simp only [Nat.testBit_and, Nat.testBit_shiftRight, Nat.testBit_two_pow_sub_one]
  by_cases hi : i < w
  · rw [testBit_byteWrite b v off w (off + i) how hv]
    have : off ≤ off + i ∧ off + i < off + w := by omega
    simp [this, hi]
  · have hvb : v.testBit i = false := by
      apply Nat.testBit_lt_two_pow
      calc v < 2 ^ w := hv
        _ ≤ 2 ^ i := Nat.pow_le_pow_right (by norm_num) (by omega)
    simp [hi, hvb]

/-- Success characterization of `set_field`. -/
theorem set_field_ok_iff (octets : List Nat) (name : String) (f : FieldSpec) (val : Int)
    (hf : FIELDS.lookup name = some f) :
    (∃ o2, set_field octets name val = Except.ok o2) ↔
      0 ≤ (if f.is_zb then val - 1 else val) ∧
        (if f.is_zb then val - 1 else val) < 2 ^ f.width := by
  simp only [set_field, hf]
  constructor
  · rintro ⟨o2, h⟩
    by_cases h1 : (2 : Int) ^ f.width ≤ (if f.is_zb then val - 1 else val)
    · simp [h1] at h
    · by_cases h2 : (if f.is_zb then val - 1 else val) < 0
      · simp [h1, h2] at h
      · omega
  · rintro ⟨h1, h2⟩
    refine ⟨octets.set f.octet
      ((octets.getD f.octet 0 &&& (255 ^^^ ((2 ^ f.width - 1) <<< f.offset))) |||
        ((if f.is_zb then val - 1 else val).toNat <<< f.offset)), ?_⟩
    rw [if_neg (by omega), if_neg (by omega)]

/-- The successful result of `set_field`. -/
theorem set_field_ok_eq (octets : List Nat) (name : String) (f : FieldSpec) (val : Int)
    (hf : FIELDS.lookup name = some f)
    (h1 : 0 ≤ (if f.is_zb then val - 1 else val))
    (h2 : (if f.is_zb then val - 1 else val) < 2 ^ f.width) :
    set_field octets name val = Except.ok (octets.set f.octet
      ((octets.getD f.octet 0 &&& (255 ^^^ ((2 ^ f.width - 1) <<< f.offset))) |||
        ((if f.is_zb then val - 1 else val).toNat <<< f.offset))) := by
  simp only [set_field, hf]
  rw [if_neg (by omega), if_neg (by omega)]

end LiteJESD

namespace LiteJESD

theorem getD_set_self {α : Type} (l : List α) (i : Nat) (a d : α) (h : i < l.length) :
    (l.set i a).getD i d = a := by
  simp [List.getD_eq_getElem?_getD, List.getElem?_set_self, h]

theorem getD_set_ne {α : Type} (l : List α) (i j : Nat) (a d : α) (h : j ≠ i) :
    (l.set i a).getD j d = l.getD j d := by
  simp [List.getD_eq_getElem?_getD, List.getElem?_set_ne (Ne.symm h)]

/-- Decoded read-back after a successful `set_field`. -/
theorem get_field_after_set (octets : List Nat) (name : String) (f : FieldSpec)
    (val : Int) (o2 : List Nat)
    (hf : FIELDS.lookup name = some f) (how : f.offset + f.width ≤ 8)
    (hoct : f.octet < octets.length)
    (hok : set_field octets name val = Except.ok o2) :
    get_field o2 name = val.toNat := by
  have hb := (set_field_ok_iff octets name f val hf).mp ⟨o2, hok⟩
  rw [set_field_ok_eq octets name f val hf hb.1 hb.2] at hok
  injection hok with hok
  subst hok
  have hcast : ((2 ^ f.width : Nat) : Int) = (2 : Int) ^ f.width := by push_cast; ring
  have hvlt : (if f.is_zb then val - 1 else val).toNat < 2 ^ f.width := by omega
  simp only [get_field, hf]
  rw [getD_set_self _ _ _ _ hoct, byteWrite_readback _ _ _ _ hvlt how]
  cases hzb : f.is_zb with
  | false =>
    simp only [hzb] at hb ⊢
    simp
  | true =>
    simp only [hzb] at hb ⊢
    simp at hb ⊢
    omega

end LiteJESD

namespace LiteJESD


/-- C8: field writes decrement count-field values by one and fail exactly when
the resulting value does not fit the field's bit width; on success the stored
bits encode the (possibly decremented) value. -/
theorem set_field_range_check (octets : List Nat) (name : String) (f : FieldSpec)
    (val : Int) (hf : FIELDS.lookup name = some f) (how : f.offset + f.width ≤ 8)
    (hoct : f.octet < octets.length) :
    ((∃ o2, set_field octets name val = Except.ok o2) ↔
      0 ≤ (if f.is_zb then val - 1 else val) ∧
        (if f.is_zb then val - 1 else val) < 2 ^ f.width) ∧
    ∀ o2, set_field octets name val = Except.ok o2 →
      get_field_raw o2 name = (if f.is_zb then val - 1 else val).toNat := by
  refine ⟨set_field_ok_iff octets name f val hf, ?_⟩
  intro o2 hok
  have hb := (set_field_ok_iff octets name f val hf).mp ⟨o2, hok⟩
  rw [set_field_ok_eq octets name f val hf hb.1 hb.2] at hok
  injection hok with hok
  subst hok
  have hcast : ((2 ^ f.width : Nat) : Int) = (2 : Int) ^ f.width := by push_cast; ring
  have hvlt : (if f.is_zb then val - 1 else val).toNat < 2 ^ f.width := by omega
  simp only [get_field_raw, hf]
  rw [getD_set_self _ _ _ _ hoct, byteWrite_readback _ _ _ _ hvlt how]

theorem set_field_range_check_witness :
    (∃ o2, set_field (List.replicate 14 0) "K" 5 = Except.ok o2) ∧
    ∀ o2, set_field (List.replicate 14 0) "K" 5 = Except.ok o2 →
      get_field_raw o2 "K" = 4 :=
  have h := set_field_range_check (List.replicate 14 0) "K" ⟨5, 0, 8, true⟩ 5
    (by decide) (by decide) (by decide)
  ⟨h.1.mpr (by decide), fun o2 ho => h.2 o2 ho⟩

/-- C9: a successful field write touches only the bits of the target octet
covered by the field, and the decoded read-back returns the written value. -/
theorem set_field_frame_effect (octets : List Nat) (name : String) (f : FieldSpec)
    (val : Int) (o2 : List Nat)
    (hf : FIELDS.lookup name = some f) (how : f.offset + f.width ≤ 8)
    (hoct : f.octet < octets.length)
    (hok : set_field octets name val = Except.ok o2) :
    o2.length = octets.length ∧
    (∀ k, k ≠ f.octet → o2.getD k 0 = octets.getD k 0) ∧
    (∀ b, b < 8 → b < f.offset ∨ f.offset + f.width ≤ b →
      (o2.getD f.octet 0).testBit b = (octets.getD f.octet 0).testBit b) ∧
    get_field o2 name = val.toNat := by
  have hget := get_field_after_set octets name f val o2 hf how hoct hok
  have hb := (set_field_ok_iff octets name f val hf).mp ⟨o2, hok⟩
  rw [set_field_ok_eq octets name f val hf hb.1 hb.2] at hok
  injection hok with hok
  subst hok
  have hcast : ((2 ^ f.width : Nat) : Int) = (2 : Int) ^ f.width := by push_cast; ring
  have hvlt : (if f.is_zb then val - 1 else val).toNat < 2 ^ f.width := by omega
  refine ⟨by simp, fun k hk => getD_set_ne _ _ _ _ _ hk, fun b hb8 hbout => ?_, hget⟩
  rw [getD_set_self _ _ _ _ hoct, testBit_byteWrite _ _ _ _ _ how hvlt]
  have : ¬ (f.offset ≤ b ∧ b < f.offset + f.width) := by omega
  simp [this, hb8]

theorem set_field_frame_effect_witness :
    List.length [0, 0, 0, 0, 0, 4, 0, 0, 0, 0, 0, 0, 0, 0] = List.length (List.replicate 14 0) ∧
    (∀ k, k ≠ 5 → List.getD [0, 0, 0, 0, 0, 4, 0, 0, 0, 0, 0, 0, 0, 0] k 0 =
      List.getD (List.replicate 14 0) k 0) ∧
    (∀ b, b < 8 → b < 0 ∨ 0 + 8 ≤ b →
      (List.getD [0, 0, 0, 0, 0, 4, 0, 0, 0, 0, 0, 0, 0, 0] 5 0).testBit b =
        (List.getD (List.replicate 14 0) 5 0).testBit b) ∧
    get_field [0, 0, 0, 0, 0, 4, 0, 0, 0, 0, 0, 0, 0, 0] "K" = (5 : Int).toNat :=
  set_field_frame_effect (List.replicate 14 0) "K" ⟨5, 0, 8, true⟩ 5 _
    (by decide) (by decide) (by decide) rfl

end LiteJESD

namespace LiteJESD

/-- `calc_fchk` always succeeds and stores the selected sum's low byte in FCHK. -/
theorem calc_fchk_fchk (flag : Bool) (octets : List Nat) (h13 : 13 < octets.length) :
    ∃ o2, calc_fchk flag octets = Except.ok o2 ∧
      get_field o2 "FCHK" =
        (if flag then (octets.take 11).sum
         else FIELDS.foldl
           (fun acc p => if p.1 = "FCHK" then acc else acc + get_field octets p.1) 0) % 256 := by
  set val : Nat := if flag then (octets.take 11).sum
    else FIELDS.foldl
      (fun acc p => if p.1 = "FCHK" then acc else acc + get_field octets p.1) 0 with hval
  have hfchk : FIELDS.lookup "FCHK" = some ⟨13, 0, 8, false⟩ := by decide
  have hand : (val &&& 255 : Nat) = val % 256 := by
    have := Nat.and_pow_two_sub_one_eq_mod val 8
    norm_num at this
    exact this
  have hlt : (val &&& 255 : Nat) < 256 := by
    rw [hand]; omega
  have h1 : (0 : Int) ≤ ((val &&& 255 : Nat) : Int) := by omega
  have h2 : ((val &&& 255 : Nat) : Int) < 2 ^ (8 : Nat) := by
    have : ((2 ^ (8 : Nat) : Nat) : Int) = (2 : Int) ^ (8 : Nat) := by norm_num
    omega
  have hok :
      calc_fchk flag octets = set_field octets "FCHK" ((val &&& 0xFF : Nat) : Int) := by
    simp only [calc_fchk, hval]
  rw [hok]
  have hset := set_field_ok_eq octets "FCHK" ⟨13, 0, 8, false⟩ ((val &&& 0xFF : Nat) : Int)
    hfchk h1 h2
  refine ⟨_, hset, ?_⟩
  have hget := get_field_after_set octets "FCHK" ⟨13, 0, 8, false⟩
    ((val &&& 0xFF : Nat) : Int) _ hfchk (by decide) h13 hset
  rw [hget, hand]
  omega

/-- C3 (amended): after `calc_fchk`, FCHK is the sum of the first 11 raw octets
mod 256 in octet mode, and otherwise the sum of the decoded values of all 21
fields other than FCHK — the reserved fields RES1 and RES2 included — mod 256. -/
theorem calc_fchk_value (octets : List Nat) (hlen : octets.length = 14) :
    (∃ o2, calc_fchk true octets = Except.ok o2 ∧
      get_field o2 "FCHK" = (octets.take 11).sum % 256) ∧
    (∃ o2, calc_fchk false octets = Except.ok o2 ∧
      get_field o2 "FCHK" =
        (get_field octets "ADJCNT" + get_field octets "ADJDIR" + get_field octets "BID" +
         get_field octets "CF" + get_field octets "CS" + get_field octets "DID" +
         get_field octets "F" + get_field octets "HD" + get_field octets "JESDV" +
         get_field octets "K" + get_field octets "L" + get_field octets "LID" +
         get_field octets "M" + get_field octets "N" + get_field octets "NP" +
         get_field octets "PHADJ" + get_field octets "S" + get_field octets "SCR" +
         get_field octets "SUBCLASSV" + get_field octets "RES1" + get_field octets "RES2")
          % 256) := by
  have h13 : 13 < octets.length := by omega
  have hfold : FIELDS.foldl
      (fun acc p => if p.1 = "FCHK" then acc else acc + get_field octets p.1) 0 =
      get_field octets "ADJCNT" + get_field octets "ADJDIR" + get_field octets "BID" +
      get_field octets "CF" + get_field octets "CS" + get_field octets "DID" +
      get_field octets "F" + get_field octets "HD" + get_field octets "JESDV" +
      get_field octets "K" + get_field octets "L" + get_field octets "LID" +
      get_field octets "M" + get_field octets "N" + get_field octets "NP" +
      get_field octets "PHADJ" + get_field octets "S" + get_field octets "SCR" +
      get_field octets "SUBCLASSV" + get_field octets "RES1" + get_field octets "RES2" := by
    simp [FIELDS]
  constructor
  · simpa using calc_fchk_fchk true octets h13
  · have h := calc_fchk_fchk false octets h13
    rw [if_neg (by simp)] at h
    rw [← hfold]
    exact h

theorem calc_fchk_value_witness :
    (∃ o2, calc_fchk true c3octets = Except.ok o2 ∧
      get_field o2 "FCHK" = (c3octets.take 11).sum % 256) ∧
    (∃ o2, calc_fchk false c3octets = Except.ok o2 ∧
      get_field o2 "FCHK" =
        (get_field c3octets "ADJCNT" + get_field c3octets "ADJDIR" + get_field c3octets "BID" +
         get_field c3octets "CF" + get_field c3octets "CS" + get_field c3octets "DID" +
         get_field c3octets "F" + get_field c3octets "HD" + get_field c3octets "JESDV" +
         get_field c3octets "K" + get_field c3octets "L" + get_field c3octets "LID" +
         get_field c3octets "M" + get_field c3octets "N" + get_field c3octets "NP" +
         get_field c3octets "PHADJ" + get_field c3octets "S" + get_field c3octets "SCR" +
         get_field c3octets "SUBCLASSV" + get_field c3octets "RES1" + get_field c3octets "RES2")
          % 256) :=
  calc_fchk_value c3octets (by decide)

/-- C3 counterexample: on `c3octets` (RES1 = 1) the code's checksum is 8, while
the sum over the non-reserved fields only (the claim's wording) is 7. -/
theorem calc_fchk_nonreserved_cx :
    (calc_fchk false c3octets).map (fun o => get_field o "FCHK") = Except.ok 8 ∧
    specFchkNonReserved c3octets = 7 ∧ (8 : Nat) ≠ 7 :=
  ⟨rfl, by decide, by decide⟩

end LiteJESD

namespace LiteJESD

/-- C10: the constructor presets SCR = JESDV = SUBCLASSV = 1 before applying
the caller's keyword values (so a caller value overrides the preset), and it
does not compute the checksum (FCHK stays 0; `calc_fchk` on the default octets
would store 10). -/
theorem mkSettings_defaults :
    ((mkSettings []).map fun o =>
      (get_field o "SCR", get_field o "JESDV", get_field o "SUBCLASSV", get_field o "FCHK"))
        = Except.ok (1, 1, 1, 0) ∧
    (((mkSettings []).bind (calc_fchk false)).map fun o => get_field o "FCHK")
        = Except.ok 10 ∧
    ∀ name f v o4, (name = "SCR" ∨ name = "JESDV" ∨ name = "SUBCLASSV") →
      FIELDS.lookup name = some f → 0 ≤ v → v < 2 ^ f.width →
      mkSettings [(name, v)] = Except.ok o4 →
      get_field o4 name = v.toNat := by
  refine ⟨rfl, rfl, ?_⟩
  intro name f v o4 hname hf h0 hlt ho4
  have hstep : mkSettings [(name, v)] =
      (set_field [0, 0, 0, 128, 0, 0, 0, 0, 32, 32, 0, 0, 0, 0] name v).bind Except.ok := by
    rfl
  rw [hstep] at ho4
  cases hsf : set_field [0, 0, 0, 128, 0, 0, 0, 0, 32, 32, 0, 0, 0, 0] name v with
  | error e => rw [hsf] at ho4; exact absurd ho4 (by simp [Except.bind])
  | ok z =>
    rw [hsf] at ho4
    simp [Except.bind] at ho4
    subst ho4
    rcases hname with h | h | h
    · subst h
      have hfv : FIELDS.lookup "SCR" = some (⟨3, 7, 1, false⟩ : FieldSpec) := by decide
      rw [hfv] at hf
      obtain rfl := (Option.some_inj.mp hf).symm
      exact get_field_after_set _ _ _ v _ hfv (by decide) (by decide) hsf
    · subst h
      have hfv : FIELDS.lookup "JESDV" = some (⟨9, 5, 3, false⟩ : FieldSpec) := by decide
      rw [hfv] at hf
      obtain rfl := (Option.some_inj.mp hf).symm
      exact get_field_after_set _ _ _ v _ hfv (by decide) (by decide) hsf
    · subst h
      have hfv : FIELDS.lookup "SUBCLASSV" = some (⟨8, 5, 3, false⟩ : FieldSpec) := by decide
      rw [hfv] at hf
      obtain rfl := (Option.some_inj.mp hf).symm
      exact get_field_after_set _ _ _ v _ hfv (by decide) (by decide) hsf

theorem mkSettings_defaults_witness :
    get_field [0, 0, 0, 0, 0, 0, 0, 0, 32, 32, 0, 0, 0, 0] "SCR" = (0 : Int).toNat :=
  mkSettings_defaults.2.2 "SCR" ⟨3, 7, 1, false⟩ 0 _ (Or.inl rfl)
    (by decide) (by decide) (by decide) rfl

end LiteJESD

namespace LiteJESD

theorem getD_eq_getElem {α : Type} (l : List α) (k : Nat) (d : α) (h : k < l.length) :
    l.getD k d = l[k] := by
  simp [List.getD_eq_getElem?_getD, List.getElem?_eq_getElem h]

theorem getD_append_left {α : Type} (l1 l2 : List α) (k : Nat) (d : α) (h : k < l1.length) :
    (l1 ++ l2).getD k d = l1.getD k d := by
  simp [List.getD_eq_getElem?_getD, List.getElem?_append_left h]

theorem getD_append_right {α : Type} (l1 l2 : List α) (k : Nat) (d : α) :
    (l1 ++ l2).getD (l1.length + k) d = l2.getD k d := by
  simp [List.getD_eq_getElem?_getD, List.getElem?_append_right (Nat.le_add_right _ _)]

theorem getD_reverse {α : Type} (l : List α) (k : Nat) (d : α) (h : k < l.length) :
    l.reverse.getD k d = l.getD (l.length - 1 - k) d := by
  have h2 : k < l.reverse.length := by simpa using h
  rw [getD_eq_getElem _ _ _ h2, getD_eq_getElem _ _ _ (by omega), List.getElem_reverse]

theorem getD_range_map {α : Type} (g : Nat → α) (n k : Nat) (d : α) (hk : k < n) :
    ((List.range n).map g).getD k d = g k := by
  simp [List.getD_eq_getElem?_getD, List.getElem?_range hk]

theorem range_map_getD {α : Type} (l : List α) (d : α) :
    (List.range l.length).map (fun k => l.getD k d) = l := by
  induction l with
  | nil => rfl
  | cons x xs ih =>
    rw [List.length_cons, List.range_succ_eq_map, List.map_cons, List.map_map]
    have hc : ((fun k => (x :: xs).getD k d) ∘ Nat.succ) = fun k => xs.getD k d := by
      funext k
      simp
    rw [hc, ih]
    simp

theorem flatMap_range_map {α : Type} (a c : Nat) (g : Nat → α) :
    ((List.range a).flatMap fun i => (List.range c).map fun j => g (i * c + j)) =
      (List.range (a * c)).map g := by
  induction a with
  | zero => simp
  | succ a ih =>
    rw [List.range_succ, List.flatMap_append, ih, Nat.succ_mul, List.range_add,
      List.map_append]
    simp [Function.comp]

theorem sum_range_mul_split (a c : Nat) (G : Nat → Nat) :
    ((List.range a).map fun f => ((List.range c).map fun i => G (f * c + i)).sum).sum =
      ((List.range (a * c)).map G).sum := by
  induction a with
  | zero => simp
  | succ a ih =>
    rw [List.range_succ, List.map_append, List.sum_append, ih, Nat.succ_mul,
      List.range_add, List.map_append, List.sum_append]
    simp [Function.comp_def]

theorem sum_digits_eq_mod (b x n : Nat) :
    ((List.range n).map fun k => x / b ^ k % b * b ^ k).sum = x % b ^ n := by
  induction n with
  | zero => simp [Nat.mod_one]
  | succ n ih =>
    rw [List.range_succ, List.map_append, List.sum_append, ih]
    simp only [List.map_cons, List.map_nil, List.sum_cons, List.sum_nil, Nat.add_zero]
    have h1 : x % b ^ (n + 1) = x % b ^ n + (x / b ^ n % b) * b ^ n := by
      rw [Nat.mod_pow_succ]
      ring
    omega

end LiteJESD

namespace LiteJESD

theorem packOctets_append (l1 l2 : List Nat) :
    packOctets (l1 ++ l2) = packOctets l1 + 256 ^ l1.length * packOctets l2 := by
  induction l1 with
  | nil => simp [packOctets]
  | cons o rest ih =>
    have h1 : (o :: rest) ++ l2 = o :: (rest ++ l2) := rfl
    rw [h1]
    show o + 256 * packOctets (rest ++ l2) =
      (o + 256 * packOctets rest) + 256 ^ (rest.length + 1) * packOctets l2
    rw [ih]
    ring

theorem packOctets_getD (l : List Nat) (hl : ∀ x ∈ l, x < 256) (k : Nat) :
    packOctets l / 256 ^ k % 256 = l.getD k 0 := by
  induction l generalizing k with
  | nil => simp [packOctets]
  | cons o rest ih =>
    have ho : o < 256 := hl o (by simp)
    have hrest : ∀ x ∈ rest, x < 256 := fun x hx => hl x (by simp [hx])
    cases k with
    | zero =>
      simp only [packOctets, List.getD_cons_zero, Nat.pow_zero, Nat.div_one]
      omega
    | succ k =>
      rw [List.getD_cons_succ, ← ih hrest k]
      simp only [packOctets]
      rw [Nat.pow_succ]
      congr 1
      rw [Nat.mul_comm (256 ^ k) 256, ← Nat.div_div_eq_div_mul]
      congr 1
      omega

theorem getD_flatMap_blocks {α β : Type} (g : α → List β) (n : Nat)
    (hg : ∀ x, (g x).length = n) (l : List α) (t k : Nat) (d : β) (d2 : α)
    (ht : t < l.length) (hk : k < n) :
    (l.flatMap g).getD (t * n + k) d = (g (l.getD t d2)).getD k d := by
  induction l generalizing t with
  | nil => simp at ht
  | cons x rest ih =>
    cases t with
    | zero =>
      simp only [List.flatMap_cons, List.getD_cons_zero, Nat.zero_mul, Nat.zero_add]
      exact getD_append_left _ _ _ _ (by rw [hg]; exact hk)
    | succ t =>
      simp only [List.flatMap_cons, List.getD_cons_succ]
      have harr : (t + 1) * n + k = (g x).length + (t * n + k) := by
        rw [hg]
        ring
      rw [harr, getD_append_right]
      exact ih t (by simpa using ht)

theorem pairOctets_length (l : List Nat) : (pairOctets l).length = l.length / 2 := by
  induction l using pairOctets.induct with
  | case1 a b rest ih => simp [pairOctets, ih]; omega
  | case2 l h => cases l with
    | nil => simp [pairOctets]
    | cons a rest => cases rest with
      | nil => simp [pairOctets]
      | cons b r2 => exact absurd rfl (h a b r2)

end LiteJESD

namespace LiteJESD

theorem pairOctets_lt (l : List Nat) (hl : ∀ x ∈ l, x < 16) :
    ∀ o ∈ pairOctets l, o < 256 := by
  induction l using pairOctets.induct with
  | case1 a b rest ih =>
    intro o ho
    simp only [pairOctets, List.mem_cons] at ho
    rcases ho with h | h
    · have ha := hl a (by simp)
      have hb := hl b (by simp)
      omega
    · exact ih (fun x hx => hl x (by simp [hx])) o h
  | case2 l h =>
    cases l with
    | nil => intro o ho; simp [pairOctets] at ho
    | cons a rest => cases rest with
      | nil => intro o ho; simp [pairOctets] at ho
      | cons b r2 => exact absurd rfl (h a b r2)

theorem unpair_pairOctets (l : List Nat) (hl : ∀ x ∈ l, x < 16) (he : l.length % 2 = 0) :
    (pairOctets l).flatMap (fun o => [o / 16 % 16, o % 16]) = l := by
  induction l using pairOctets.induct with
  | case1 a b rest ih =>
    have ha := hl a (by simp)
    have hb := hl b (by simp)
    have h1 : (b + 16 * a) / 16 % 16 = a := by omega
    have h2 : (b + 16 * a) % 16 = b := by omega
    simp only [pairOctets, List.flatMap_cons, h1, h2]
    rw [ih (fun x hx => hl x (by simp [hx])) (by simp at he; omega)]
    rfl
  | case2 l h =>
    cases l with
    | nil => simp [pairOctets]
    | cons a rest => cases rest with
      | nil => simp at he
      | cons b r2 => exact absurd rfl (h a b r2)

theorem wordNibbles_length (npw w : Nat) : (wordNibbles npw w).length = npw := by
  simp [wordNibbles]

theorem wordNibbles_lt (npw w : Nat) : ∀ x ∈ wordNibbles npw w, x < 16 := by
  intro x hx
  simp only [wordNibbles, List.mem_map] at hx
  obtain ⟨i, _, rfl⟩ := hx
  omega

theorem wordNibbles_reverse (npw w : Nat) :
    (wordNibbles npw w).reverse = (List.range npw).map fun k => w / 2 ^ (4 * k) % 16 := by
  rw [wordNibbles, ← List.map_reverse, List.reverse_reverse]

theorem sum_pack_blocks (F n : Nat) (B : Nat → List Nat) (hB : ∀ f, f < n → (B f).length = F) :
    ((List.range n).map fun f => packOctets (B f) * 2 ^ (8 * (F * f))).sum =
      packOctets ((List.range n).flatMap B) := by
  induction n with
  | zero => simp [packOctets]
  | succ n ih =>
    rw [List.range_succ, List.map_append, List.sum_append, List.flatMap_append,
      packOctets_append, ih (fun f hf => hB f (by omega))]
    simp only [List.map_cons, List.map_nil, List.sum_cons, List.sum_nil, Nat.add_zero,
      List.flatMap_cons, List.flatMap_nil, List.append_nil]
    have hlen : ((List.range n).flatMap B).length = n * F := by
      rw [List.length_flatMap]
      have hmc : (List.range n).map (List.length ∘ B) = (List.range n).map fun _ => F := by
        apply List.map_congr_left
        intro f hf
        exact hB f (by simp at hf; omega)
      rw [hmc]
      simp [List.map_const', Nat.mul_comm]
    rw [hlen]
    have hpow : (256 : Nat) ^ (n * F) = 2 ^ (8 * (F * n)) := by
      have h2 : (256 : Nat) = 2 ^ 8 := by norm_num
      rw [h2, ← Nat.pow_mul]
      ring_nf
    rw [hpow]
    ring

end LiteJESD

namespace LiteJESD

theorem getD_range (n k d : Nat) (hk : k < n) : (List.range n).getD k d = k := by
  simp [List.getD_eq_getElem?_getD, List.getElem?_range hk]

theorem getD_take {α : Type} (l : List α) (n k : Nat) (d : α) (hk : k < n) :
    (l.take n).getD k d = l.getD k d := by
  simp [List.getD_eq_getElem?_getD, List.getElem?_take_of_lt hk]

theorem getD_drop {α : Type} (l : List α) (n k : Nat) (d : α) :
    (l.drop n).getD k d = l.getD (n + k) d := by
  simp [List.getD_eq_getElem?_getD, List.getElem?_drop]

theorem txFrameSamples_length (st : JesdSettings) (conv : Nat → Nat) (f : Nat) :
    (txFrameSamples st conv f).length = st.M * st.S := by
  rw [txFrameSamples, List.length_flatMap]
  have hmc : (List.range st.M).map
      (List.length ∘ fun j => (List.range st.S).map fun i =>
        conv j / 2 ^ ((f * st.S + i) * st.N) % 2 ^ st.N) =
      (List.range st.M).map fun _ => st.S := by
    apply List.map_congr_left
    intro j _
    simp
  rw [hmc]
  simp [List.map_const', Nat.mul_comm]

theorem txFrameSamples_lt (st : JesdSettings) (conv : Nat → Nat) (f : Nat) :
    ∀ x ∈ txFrameSamples st conv f, x < 2 ^ st.N := by
  intro x hx
  simp only [txFrameSamples, List.mem_flatMap, List.mem_map] at hx
  obtain ⟨j, _, i, _, rfl⟩ := hx
  exact Nat.mod_lt _ (Nat.pos_pow_of_pos _ (by omega))

theorem txFrameSamples_getD (st : JesdSettings) (conv : Nat → Nat) (f j i : Nat)
    (hj : j < st.M) (hi : i < st.S) :
    (txFrameSamples st conv f).getD (j * st.S + i) 0 =
      conv j / 2 ^ ((f * st.S + i) * st.N) % 2 ^ st.N := by
  rw [txFrameSamples,
    getD_flatMap_blocks _ st.S (fun x => by simp) _ j i 0 0 (by simpa using hj) hi,
    getD_range _ _ _ hj, getD_range_map _ _ _ _ hi]

end LiteJESD

namespace LiteJESD

theorem txNibbles_length (st : JesdSettings) (conv : Nat → Nat) (f : Nat) :
    ((txFrameSamples st conv f).flatMap (wordNibbles (nibbles_per_word st))).length =
      st.M * st.S * nibbles_per_word st := by
  rw [List.length_flatMap]
  have hmc : (txFrameSamples st conv f).map (List.length ∘ wordNibbles (nibbles_per_word st)) =
      (txFrameSamples st conv f).map fun _ => nibbles_per_word st := by
    apply List.map_congr_left
    intro w _
    simp [wordNibbles_length]
  rw [hmc]
  simp [List.map_const', txFrameSamples_length, Nat.mul_comm]

theorem txNibbles_lt (st : JesdSettings) (conv : Nat → Nat) (f : Nat) :
    ∀ x ∈ (txFrameSamples st conv f).flatMap (wordNibbles (nibbles_per_word st)), x < 16 := by
  intro x hx
  simp only [List.mem_flatMap] at hx
  obtain ⟨w, _, hw⟩ := hx
  exact wordNibbles_lt _ _ x hw

/-- Given the F-consistency invariant and NP divisible by 4, each frame carries
M*S*(NP/4) nibbles = 2*L*F of them. -/
theorem msnpw_eq (st : JesdSettings)
    (hcons : st.M * st.S * st.NP = 8 * (st.L * st.F)) (hNP4 : st.NP % 4 = 0) :
    st.M * st.S * nibbles_per_word st = 2 * (st.L * st.F) := by
  have hnw : nibbles_per_word st = st.NP / 4 := by
    unfold nibbles_per_word
    omega
  rw [hnw]
  have h4 : st.NP = 4 * (st.NP / 4) := by omega
  have : st.M * st.S * (4 * (st.NP / 4)) = 8 * (st.L * st.F) := by rw [← h4]; exact hcons
  have h2 : 4 * (st.M * st.S * (st.NP / 4)) = st.M * st.S * (4 * (st.NP / 4)) := by
    ring
  omega

theorem txFrameOctets_length (st : JesdSettings) (conv : Nat → Nat) (f : Nat)
    (hcons : st.M * st.S * st.NP = 8 * (st.L * st.F)) (hNP4 : st.NP % 4 = 0) :
    (txFrameOctets st conv f).length = st.L * st.F := by
  rw [txFrameOctets, pairOctets_length, txNibbles_length, msnpw_eq st hcons hNP4]
  omega

theorem txFrameOctets_lt (st : JesdSettings) (conv : Nat → Nat) (f : Nat) :
    ∀ o ∈ txFrameOctets st conv f, o < 256 :=
  pairOctets_lt _ (txNibbles_lt st conv f)

theorem txFrameLaneOctets_length (st : JesdSettings) (conv : Nat → Nat) (f i : Nat)
    (hcons : st.M * st.S * st.NP = 8 * (st.L * st.F)) (hNP4 : st.NP % 4 = 0)
    (hi : i < st.L) :
    (txFrameLaneOctets st conv f i).length = st.F := by
  rw [txFrameLaneOctets, List.length_take, List.length_drop,
    txFrameOctets_length st conv f hcons hNP4]
  have : (i + 1) * st.F ≤ st.L * st.F := Nat.mul_le_mul_right _ (by omega)
  have h2 : i * st.F + st.F ≤ st.L * st.F := by
    calc i * st.F + st.F = (i + 1) * st.F := by ring
    _ ≤ st.L * st.F := this
  omega

theorem txFrameLaneOctets_getD (st : JesdSettings) (conv : Nat → Nat) (f i j : Nat)
    (hj : j < st.F) :
    (txFrameLaneOctets st conv f i).getD j 0 =
      (txFrameOctets st conv f).getD (i * st.F + j) 0 := by
  rw [txFrameLaneOctets, getD_take _ _ _ _ hj, getD_drop]

theorem txLane_eq_pack (st : JesdSettings) (conv : Nat → Nat) (i : Nat)
    (hcons : st.M * st.S * st.NP = 8 * (st.L * st.F)) (hNP4 : st.NP % 4 = 0)
    (hi : i < st.L) :
    txLane st conv i =
      packOctets ((List.range st.FR_CLK).flatMap fun f => txFrameLaneOctets st conv f i) :=
  sum_pack_blocks st.F st.FR_CLK _
    (fun f _ => txFrameLaneOctets_length st conv f i hcons hNP4 hi)

theorem txLane_byte (st : JesdSettings) (conv : Nat → Nat) (i f j : Nat)
    (hcons : st.M * st.S * st.NP = 8 * (st.L * st.F)) (hNP4 : st.NP % 4 = 0)
    (hi : i < st.L) (hf : f < st.FR_CLK) (hj : j < st.F) :
    txLane st conv i / 2 ^ (8 * (f * st.F + j)) % 256 =
      (txFrameOctets st conv f).getD (i * st.F + j) 0 := by
  rw [txLane_eq_pack st conv i hcons hNP4 hi]
  have hpow : (2 : Nat) ^ (8 * (f * st.F + j)) = 256 ^ (f * st.F + j) := by
    rw [show (256 : Nat) = 2 ^ 8 by norm_num, ← Nat.pow_mul]
  rw [hpow]
  have hbound : ∀ x ∈ (List.range st.FR_CLK).flatMap fun f => txFrameLaneOctets st conv f i,
      x < 256 := by
    intro x hx
    simp only [List.mem_flatMap] at hx
    obtain ⟨g, _, hg⟩ := hx
    have hsub : ∀ y ∈ txFrameLaneOctets st conv g i, y < 256 := by
      intro y hy
      apply txFrameOctets_lt st conv g
      rw [txFrameLaneOctets] at hy
      exact List.mem_of_mem_drop (List.mem_of_mem_take hy)
    exact hsub x hg
  rw [packOctets_getD _ hbound,
    getD_flatMap_blocks _ st.F
      (fun x => txFrameLaneOctets_length st conv x i hcons hNP4 hi) _ f j 0 0
      (by simpa using hf) hj,
    getD_range _ _ _ hf, txFrameLaneOctets_getD st conv f i j hj]

end LiteJESD

namespace LiteJESD

theorem rxFrameOctets_eq (st : JesdSettings) (conv : Nat → Nat) (f : Nat)
    (hcons : st.M * st.S * st.NP = 8 * (st.L * st.F)) (hNP4 : st.NP % 4 = 0)
    (hf : f < st.FR_CLK) :
    rxFrameOctets st (txLane st conv) f = txFrameOctets st conv f := by
  rw [rxFrameOctets]
  have hcongr : ((List.range st.L).flatMap fun i => (List.range st.F).map fun j =>
      txLane st conv i / 2 ^ (8 * (f * st.F + j)) % 256) =
      (List.range st.L).flatMap fun i => (List.range st.F).map fun j =>
        (txFrameOctets st conv f).getD (i * st.F + j) 0 := by
    rw [List.flatMap_def, List.flatMap_def]
    congr 1
    apply List.map_congr_left
    intro i hi
    apply List.map_congr_left
    intro j hj
    simp only [List.mem_range] at hi hj
    exact txLane_byte st conv i f j hcons hNP4 hi hf hj
  rw [hcongr, flatMap_range_map st.L st.F fun t => (txFrameOctets st conv f).getD t 0]
  have hlen : st.L * st.F = (txFrameOctets st conv f).length :=
    (txFrameOctets_length st conv f hcons hNP4).symm
  rw [hlen, range_map_getD]

theorem rxFrameNibbles_eq (st : JesdSettings) (conv : Nat → Nat) (f : Nat)
    (hcons : st.M * st.S * st.NP = 8 * (st.L * st.F)) (hNP4 : st.NP % 4 = 0)
    (hf : f < st.FR_CLK) :
    rxFrameNibbles st (txLane st conv) f =
      (txFrameSamples st conv f).flatMap (wordNibbles (nibbles_per_word st)) := by
  rw [rxFrameNibbles, rxFrameOctets_eq st conv f hcons hNP4 hf, txFrameOctets]
  apply unpair_pairOctets
  · exact txNibbles_lt st conv f
  · rw [txNibbles_length, msnpw_eq st hcons hNP4]
    omega

theorem rxFrameWord_eq (st : JesdSettings) (conv : Nat → Nat) (f t : Nat)
    (hcons : st.M * st.S * st.NP = 8 * (st.L * st.F)) (hNP4 : st.NP % 4 = 0)
    (hN : st.N ≤ st.NP)
    (hf : f < st.FR_CLK) (ht : t < st.M * st.S) :
    rxFrameWord st (txLane st conv) f t =
      (txFrameSamples st conv f).getD (st.M * st.S - 1 - t) 0 := by
  rw [rxFrameWord, rxFrameNibbles_eq st conv f hcons hNP4 hf, List.reverse_flatMap]
  have hrw : (List.reverse ∘ wordNibbles (nibbles_per_word st)) =
      fun w => (List.range (nibbles_per_word st)).map fun k => w / 2 ^ (4 * k) % 16 := by
    funext w
    exact wordNibbles_reverse _ w
  rw [hrw]
  have hlen : t < (txFrameSamples st conv f).reverse.length := by
    rw [List.length_reverse, txFrameSamples_length]
    exact ht
  have hblock : ∀ k, k < nibbles_per_word st →
      ((txFrameSamples st conv f).reverse.flatMap fun w =>
        (List.range (nibbles_per_word st)).map fun k => w / 2 ^ (4 * k) % 16).getD
          (t * nibbles_per_word st + k) 0 =
        ((txFrameSamples st conv f).reverse.getD t 0) / 2 ^ (4 * k) % 16 := by
    intro k hk
    rw [getD_flatMap_blocks _ (nibbles_per_word st) (fun x => by simp) _ t k 0 0 hlen hk,
      getD_range_map _ _ _ _ hk]
  have hcongr : (List.range (nibbles_per_word st)).map (fun k =>
      ((txFrameSamples st conv f).reverse.flatMap fun w =>
        (List.range (nibbles_per_word st)).map fun k => w / 2 ^ (4 * k) % 16).getD
          (t * nibbles_per_word st + k) 0 * 2 ^ (4 * k)) =
      (List.range (nibbles_per_word st)).map fun k =>
        ((txFrameSamples st conv f).reverse.getD t 0) / 16 ^ k % 16 * 16 ^ k := by
    apply List.map_congr_left
    intro k hk
    simp only [List.mem_range] at hk
    rw [hblock k hk]
    have h16 : (2 : Nat) ^ (4 * k) = 16 ^ k := by
      rw [show (16 : Nat) = 2 ^ 4 by norm_num, ← Nat.pow_mul]
    rw [h16]
  rw [hcongr, sum_digits_eq_mod 16]
  have hrev : (txFrameSamples st conv f).reverse.getD t 0 =
      (txFrameSamples st conv f).getD (st.M * st.S - 1 - t) 0 := by
    rw [getD_reverse _ _ _ (by rw [txFrameSamples_length]; exact ht),
      txFrameSamples_length]
  rw [hrev]
  apply Nat.mod_eq_of_lt
  have hmem : (txFrameSamples st conv f).getD (st.M * st.S - 1 - t) 0 ∈
      txFrameSamples st conv f := by
    rw [getD_eq_getElem _ _ _ (by rw [txFrameSamples_length]; omega)]
    exact List.getElem_mem _
  calc (txFrameSamples st conv f).getD (st.M * st.S - 1 - t) 0 < 2 ^ st.N :=
        txFrameSamples_lt st conv f _ hmem
    _ ≤ 16 ^ nibbles_per_word st := by
        rw [show (16 : Nat) = 2 ^ 4 by norm_num, ← Nat.pow_mul]
        apply Nat.pow_le_pow_right (by norm_num)
        unfold nibbles_per_word
        omega

end LiteJESD

namespace LiteJESD

/-- C2 (amended): the transport round-trip is the identity for every parameter
combination with F = M*S*NP/8/L, F in the set 1, 2, 4, provided additionally
NP is a multiple of 4 and N does not exceed NP. -/
theorem transport_roundtrip (st : JesdSettings) (conv : Nat → Nat)
    (hF : st.F = 1 ∨ st.F = 2 ∨ st.F = 4)
    (hcons : st.M * st.S * st.NP = 8 * (st.L * st.F))
    (hNP4 : st.NP % 4 = 0)
    (hN : st.N ≤ st.NP)
    (hdw : st.LINK_DW = 32)
    (hfr : st.FR_CLK = st.LINK_DW / 8 / st.F)
    (hconv : ∀ j, j < st.M → conv j < 2 ^ (st.N * samples_per_clock st)) :
    ∀ j, j < st.M → rxConverter st (txLane st conv) j = conv j := by
  intro j hj
  rw [rxConverter]
  have hstep : ∀ f, f < st.FR_CLK → ∀ i, i < st.S →
      rxFrameWord st (txLane st conv) f (st.M * st.S - 1 - (j * st.S + i)) % 2 ^ st.N =
        conv j / 2 ^ ((f * st.S + i) * st.N) % 2 ^ st.N := by
    intro f hf i hi
    have hms : j * st.S + i < st.M * st.S := by
      calc j * st.S + i < j * st.S + st.S := by omega
        _ = (j + 1) * st.S := by ring
        _ ≤ st.M * st.S := Nat.mul_le_mul_right _ (by omega)
    have ht : st.M * st.S - 1 - (j * st.S + i) < st.M * st.S := by omega
    rw [rxFrameWord_eq st conv f _ hcons hNP4 hN hf ht]
    have hidx : st.M * st.S - 1 - (st.M * st.S - 1 - (j * st.S + i)) = j * st.S + i := by
      omega
    rw [hidx, txFrameSamples_getD st conv f j i hj hi, Nat.mod_mod]
  have h1 : (List.range st.FR_CLK).map (fun f => ((List.range st.S).map fun i =>
      rxFrameWord st (txLane st conv) f (st.M * st.S - 1 - (j * st.S + i)) % 2 ^ st.N
        * 2 ^ ((f * st.S + i) * st.N)).sum) =
      (List.range st.FR_CLK).map (fun f => ((List.range st.S).map fun i =>
        (fun t => conv j / 2 ^ (t * st.N) % 2 ^ st.N * 2 ^ (t * st.N)) (f * st.S + i)).sum) := by
    apply List.map_congr_left
    intro f hf
    congr 1
    apply List.map_congr_left
    intro i hi
    simp only [List.mem_range] at hf hi
    rw [hstep f hf i hi]
  rw [h1, sum_range_mul_split st.FR_CLK st.S
    (fun t => conv j / 2 ^ (t * st.N) % 2 ^ st.N * 2 ^ (t * st.N))]
  have h2 : (List.range (st.FR_CLK * st.S)).map
      (fun t => conv j / 2 ^ (t * st.N) % 2 ^ st.N * 2 ^ (t * st.N)) =
      (List.range (st.FR_CLK * st.S)).map
        (fun t => conv j / (2 ^ st.N) ^ t % 2 ^ st.N * (2 ^ st.N) ^ t) := by
    apply List.map_congr_left
    intro t _
    rw [Nat.mul_comm t st.N, Nat.pow_mul]
  rw [h2, sum_digits_eq_mod (2 ^ st.N)]
  apply Nat.mod_eq_of_lt
  calc conv j < 2 ^ (st.N * samples_per_clock st) := hconv j hj
    _ = (2 ^ st.N) ^ (st.FR_CLK * st.S) := by
       rw [← Nat.pow_mul, samples_per_clock]
       ring_nf
    _ ≤ (2 ^ st.N) ^ (st.FR_CLK * st.S) := le_refl _

/-- C2 witness configuration result: the L=2, M=2, S=1, N=16, NP=16, F=2
example round-trips both converters. -/
theorem transport_roundtrip_witness :
    rxConverter exSettings (txLane exSettings exConv) 0 = exConv 0 ∧
    rxConverter exSettings (txLane exSettings exConv) 1 = exConv 1 :=
  ⟨transport_roundtrip exSettings exConv (by decide) (by decide) (by decide) (by decide)
      (by decide) (by decide) (by decide) 0 (by decide),
   transport_roundtrip exSettings exConv (by decide) (by decide) (by decide) (by decide)
      (by decide) (by decide) (by decide) 1 (by decide)⟩

/-- C2 counterexample: `cxSettings` satisfies the claim's hypotheses
(F = M*S*NP/8/L = 1, F in the set) but the round-trip drops the upper byte of
the 16-bit sample because NP = 8 < N = 16. -/
theorem transport_roundtrip_cx :
    cxSettings.M * cxSettings.S * cxSettings.NP = 8 * (cxSettings.L * cxSettings.F) ∧
    (cxSettings.F = 1 ∨ cxSettings.F = 2 ∨ cxSettings.F = 4) ∧
    cxSettings.LINK_DW = 32 ∧
    cxSettings.FR_CLK = cxSettings.LINK_DW / 8 / cxSettings.F ∧
    cxConv 0 = 0x1234 ∧
    cxConv 0 < 2 ^ (cxSettings.N * samples_per_clock cxSettings) ∧
    rxConverter cxSettings (txLane cxSettings cxConv) 0 = 0x34 ∧
    rxConverter cxSettings (txLane cxSettings cxConv) 0 ≠ cxConv 0 := by
  refine ⟨by decide, by decide, by decide, by decide, by decide, by decide, ?_, ?_⟩ <;> decide

end LiteJESD

namespace LiteJESD

/-- C4 (amended): with L=2, M=2, S=1, N=16, NP=16, F=2 and converter0=0x1234,
converter1=0x5678, frame 0 of the pre-scramble TX output carries the octet
sequence 0x12, 0x34 on lane0 and 0x56, 0x78 on lane1 (octet 0 first, i.e. the
low byte of the packed lane word, as the repository's own tests print it). -/
theorem transport_example :
    txFrameLaneOctets exSettings exConv 0 0 = [0x12, 0x34] ∧
    txFrameLaneOctets exSettings exConv 0 1 = [0x56, 0x78] ∧
    txLane exSettings exConv 0 % 2 ^ 16 = 0x3412 ∧
    txLane exSettings exConv 1 % 2 ^ 16 = 0x7856 := by
  refine ⟨?_, ?_, ?_, ?_⟩ <;> decide

/-- C4 counterexample: the claim's octet sequences are byte-reversed — frame 0
on lane0 is 0x12 then 0x34, not 0x34 then 0x12 (and likewise on lane1). -/
theorem transport_example_cx :
    txFrameLaneOctets exSettings exConv 0 0 ≠ [0x34, 0x12] ∧
    txFrameLaneOctets exSettings exConv 0 1 ≠ [0x78, 0x56] := by
  refine ⟨?_, ?_⟩ <;> decide

end LiteJESD

namespace LiteJESD

theorem testBit_ofBits (f : Nat → Bool) (n j : Nat) :
    (ofBits f n).testBit j = if j < n then f j else false := by
  induction n with
  | zero => simp [ofBits]
  | succ n ih =>
    simp only [ofBits, Nat.testBit_or, ih]
    by_cases hj : j = n
    · subst hj
      cases hfn : f j <;> simp [Nat.testBit_two_pow, hfn]
    · by_cases hj2 : j < n
      · have : j < n + 1 := by omega
        cases hfn : f n <;> simp [Nat.testBit_two_pow, hfn, hj2, this, Ne.symm hj]
      · have h1 : ¬ j < n + 1 := by omega
        cases hfn : f n <;> simp [Nat.testBit_two_pow, hfn, hj2, h1, Ne.symm hj]

theorem ofBits_lt (f : Nat → Bool) (n : Nat) : ofBits f n < 2 ^ n := by
  induction n with
  | zero => simp [ofBits]
  | succ n ih =>
    simp only [ofBits]
    have hp : 0 < 2 ^ n := Nat.pos_pow_of_pos _ (by norm_num)
    have hs : (2 : Nat) ^ (n + 1) = 2 * 2 ^ n := by rw [Nat.pow_succ]; ring
    apply Nat.or_lt_two_pow
    · omega
    · cases f n <;> simp <;> omega

theorem fbAux_testBit_out (state sx k j : Nat) (hj : 32 ≤ j ∨ j < 32 - k) :
    (fbAux state sx k).testBit j = false := by
  induction k with
  | zero => simp [fbAux]
  | succ k ih =>
    have hne : (31 - k) ≠ j := by omega
    simp only [fbAux]
    have hacc : (fbAux state sx k).testBit j = false := by
      apply ih
      omega
    cases hc : (fullBit (fbAux state sx k) state (15 + (31 - k))).xor
        ((fullBit (fbAux state sx k) state (14 + (31 - k))).xor (sx.testBit (31 - k))) with
    | false => simp [hc, hacc]
    | true => simp [hc, Nat.testBit_or, hacc, Nat.testBit_two_pow, hne]

theorem fbAux_agree (state sx : Nat) (k m j : Nat) (hk : k ≤ m) (hm : m ≤ 32)
    (hj : 32 - k ≤ j) :
    (fbAux state sx m).testBit j = (fbAux state sx k).testBit j := by
  induction m with
  | zero =>
    have : k = 0 := by omega
    subst this
    rfl
  | succ m ih =>
    by_cases hkm : k = m + 1
    · subst hkm
      rfl
    · have hk2 : k ≤ m := by omega
      have hne : (31 - m) ≠ j := by omega
      simp only [fbAux]
      cases hc : (fullBit (fbAux state sx m) state (15 + (31 - m))).xor
          ((fullBit (fbAux state sx m) state (14 + (31 - m))).xor (sx.testBit (31 - m))) with
      | false =>
        rw [if_neg (by simp)]
        exact ih hk2 (by omega)
      | true =>
        rw [if_pos rfl, Nat.testBit_or, ih hk2 (by omega), Nat.testBit_two_pow]
        simp [hne]

end LiteJESD

namespace LiteJESD

/-- The computed feedback satisfies the defining fixpoint equation of the
scrambler's combinational loop: bit `i` equals
`full[15+i] ^ full[14+i] ^ sx[i]` with `full = Cat(feedback, state)`. -/
theorem scramblerFeedback_spec (state sx : Nat) (i : Nat) (hi : i < 32) :
    (scramblerFeedback state sx).testBit i =
      (fullBit (scramblerFeedback state sx) state (15 + i)).xor
        ((fullBit (scramblerFeedback state sx) state (14 + i)).xor (sx.testBit i)) := by
  have hk : i = 31 - (32 - (i + 1)) := by omega
  set k := 32 - (i + 1) with hkdef
  have hik : i = 31 - k := by omega
  have hlhs : (scramblerFeedback state sx).testBit i = (fbAux state sx (k + 1)).testBit i := by
    rw [scramblerFeedback]
    exact fbAux_agree state sx (k + 1) 32 i (by omega) (by omega) (by omega)
  rw [hlhs]
  have hstep : (fbAux state sx (k + 1)).testBit i =
      (fullBit (fbAux state sx k) state (15 + i)).xor
        ((fullBit (fbAux state sx k) state (14 + i)).xor (sx.testBit i)) := by
    simp only [fbAux, ← hik]
    cases hc : (fullBit (fbAux state sx k) state (15 + i)).xor
        ((fullBit (fbAux state sx k) state (14 + i)).xor (sx.testBit i)) with
    | false =>
      rw [if_neg (by simp)]
      exact fbAux_testBit_out state sx k i (by omega)
    | true =>
      rw [if_pos rfl, Nat.testBit_or, Nat.testBit_two_pow]
      simp [fbAux_testBit_out state sx k i (by omega)]
  rw [hstep]
  have htap : ∀ d, 14 ≤ d → (fullBit (fbAux state sx k) state (d + i)) =
      (fullBit (scramblerFeedback state sx) state (d + i)) := by
    intro d hd
    rw [fullBit, fullBit]
    by_cases hlt : d + i < 32
    · rw [if_pos hlt, if_pos hlt, scramblerFeedback]
      exact (fbAux_agree state sx k 32 (d + i) (by omega) (by omega) (by omega)).symm
    · rw [if_neg hlt, if_neg hlt]
  rw [show 15 + i = 15 + i from rfl, show (14 : Nat) + i = 14 + i from rfl,
    htap 15 (by omega), htap 14 (by omega)]

theorem scramblerFeedback_lt (state sx : Nat) : scramblerFeedback state sx < 2 ^ 32 := by
  by_contra h
  push_neg at h
  obtain ⟨i, hi, hbit⟩ := Nat.ge_two_pow_implies_high_bit_true h
  rw [scramblerFeedback, fbAux_testBit_out state sx 32 i (by omega)] at hbit
  exact Bool.false_ne_true hbit

theorem swizzle_lt (x : Nat) : swizzle x < 2 ^ 32 := by
  unfold swizzle
  have h8 : (2 : Nat) ^ 8 = 256 := by norm_num
  have h16 : (2 : Nat) ^ 16 = 65536 := by norm_num
  have h24 : (2 : Nat) ^ 24 = 16777216 := by norm_num
  have h32 : (2 : Nat) ^ 32 = 4294967296 := by norm_num
  rw [h8, h16, h24, h32]
  omega

theorem swizzle_swizzle (x : Nat) (hx : x < 2 ^ 32) : swizzle (swizzle x) = x := by
  have key : ∀ y A B C D : Nat, A < 256 → B < 256 → C < 256 → D < 256 →
      y = A + B * 256 + C * 65536 + D * 16777216 →
      swizzle y = D + C * 256 + B * 65536 + A * 16777216 := by
    intro y A B C D hA hB hC hD hy
    subst hy
    unfold swizzle
    have h8 : (2 : Nat) ^ 8 = 256 := by norm_num
    have h16 : (2 : Nat) ^ 16 = 65536 := by norm_num
    have h24 : (2 : Nat) ^ 24 = 16777216 := by norm_num
    rw [h8, h16, h24]
    omega
  have h1 : swizzle x = x / 16777216 % 256 + x / 65536 % 256 * 256 +
      x / 256 % 256 * 65536 + x % 256 * 16777216 := by
    unfold swizzle
    have h8 : (2 : Nat) ^ 8 = 256 := by norm_num
    have h16 : (2 : Nat) ^ 16 = 65536 := by norm_num
    have h24 : (2 : Nat) ^ 24 = 16777216 := by norm_num
    rw [h8, h16, h24]
  have h2 := key (swizzle x) (x / 16777216 % 256) (x / 65536 % 256) (x / 256 % 256)
    (x % 256) (by omega) (by omega) (by omega) (by omega) h1
  rw [h2]
  have h32 : (2 : Nat) ^ 32 = 4294967296 := by norm_num
  have e1 : x % 65536 = x % 256 + 256 * (x / 256 % 256) := by
    rw [show (65536 : Nat) = 256 * 256 by norm_num]
    exact Nat.mod_mul
  have e2 : x % 16777216 = x % 65536 + 65536 * (x / 65536 % 256) := by
    rw [show (16777216 : Nat) = 65536 * 256 by norm_num]
    exact Nat.mod_mul
  have e3 : x % 4294967296 = x % 16777216 + 16777216 * (x / 16777216 % 256) := by
    rw [show (4294967296 : Nat) = 16777216 * 256 by norm_num]
    exact Nat.mod_mul
  have e4 : x % 4294967296 = x := Nat.mod_eq_of_lt (by omega)
  omega

/-- Feeding the scrambler's feedback word into the descrambler's feedback
network with the same 15-bit state recovers the swizzled input: the two tap
XORs cancel. -/
theorem descramblerFeedback_scramblerFeedback (state sx : Nat) (hsx : sx < 2 ^ 32) :
    descramblerFeedback state (scramblerFeedback state sx) = sx := by
  apply Nat.eq_of_testBit_eq
  intro i
  rw [descramblerFeedback, testBit_ofBits]
  by_cases hi : i < 32
  · rw [if_pos hi]
    have hfb := scramblerFeedback_spec state sx i hi
    have hfull : ∀ j, fullBit (scramblerFeedback state sx) state j =
        fullBit (scramblerFeedback state sx) state j := fun j => rfl
    rw [hfb]
    cases fullBit (scramblerFeedback state sx) state (15 + i) <;>
      cases fullBit (scramblerFeedback state sx) state (14 + i) <;>
      cases sx.testBit i <;> rfl
  · rw [if_neg hi]
    have : sx < 2 ^ i :=
      Nat.lt_of_lt_of_le hsx (Nat.pow_le_pow_right (by norm_num) (by omega))
    exact (Nat.testBit_lt_two_pow this).symm

/-- One-step round trip: with equal states, the descrambler undoes the
scrambler and both next states agree. -/
theorem descramblerStep_scramblerStep (st x : Nat) (hx : x < 2 ^ 32) :
    descramblerStep st (scramblerStep st x).2 = ((scramblerStep st x).1, x) := by
  unfold descramblerStep scramblerStep
  simp only
  rw [swizzle_swizzle _ (scramblerFeedback_lt st (swizzle x)),
    descramblerFeedback_scramblerFeedback st (swizzle x) (swizzle_lt x),
    swizzle_swizzle x hx]

/-- Run-level round trip from a common state. -/
theorem descramblerRun_scramblerRun (xs : List Nat) :
    ∀ st, (∀ x ∈ xs, x < 2 ^ 32) →
      descramblerRun st (scramblerRun st xs) = xs := by
  induction xs with
  | nil =>
    intro st _
    rfl
  | cons x rest ih =>
    intro st hxs
    have hx : x < 2 ^ 32 := hxs x (by simp)
    simp only [scramblerRun, descramblerRun]
    rw [descramblerStep_scramblerStep st x hx]
    simp only
    rw [ih _ (fun y hy => hxs y (by simp [hy]))]

/-- C1: feeding the scrambler's word stream into the descrambler reproduces the
original stream (the two single-cycle pipeline registers only shift timing),
provided both start from the seed 0x7f80 and are reset together. -/
theorem scrambler_descrambler_roundtrip (xs : List Nat) (hxs : ∀ x ∈ xs, x < 2 ^ 32) :
    descramblerRun 0x7f80 (scramblerRun 0x7f80 xs) = xs :=
  descramblerRun_scramblerRun xs 0x7f80 hxs

theorem scrambler_descrambler_roundtrip_witness :
    descramblerRun 0x7f80 (scramblerRun 0x7f80 [0x12345678, 0xCAFEBABE, 0, 0xFFFFFFFF]) =
      [0x12345678, 0xCAFEBABE, 0, 0xFFFFFFFF] :=
  scrambler_descrambler_roundtrip [0x12345678, 0xCAFEBABE, 0, 0xFFFFFFFF] (by decide)

end LiteJESD

namespace LiteJESD

theorem size_eq_size_div_two (n : Nat) (hn : n ≠ 0) :
    Nat.size n = Nat.size (n / 2) + 1 := by
  apply Nat.le_antisymm
  · apply Nat.size_le.mpr
    have hp := Nat.lt_size_self (n / 2)
    have hs : (2 : Nat) ^ (Nat.size (n / 2) + 1) = 2 * 2 ^ Nat.size (n / 2) := by
      rw [Nat.pow_succ]
      ring
    omega
  · by_cases h0 : n / 2 = 0
    · rw [h0, Nat.size_zero]
      have h1 : 0 < Nat.size n := Nat.size_pos.mpr (by omega)
      omega
    · have hs : 1 ≤ Nat.size (n / 2) := Nat.size_pos.mpr (by omega)
      have h1 : 2 ^ (Nat.size (n / 2) - 1) ≤ n / 2 := by
        apply Nat.lt_size.mp
        omega
      have h2 : 2 ^ Nat.size (n / 2) ≤ n := by
        have hps : (2 : Nat) ^ Nat.size (n / 2) = 2 * 2 ^ (Nat.size (n / 2) - 1) := by
          conv_lhs => rw [show Nat.size (n / 2) = (Nat.size (n / 2) - 1) + 1 by omega]
          rw [Nat.pow_succ]
          ring
        omega
      have := Nat.lt_size.mpr h2
      omega

theorem bitLenAux_eq_size (fuel n : Nat) (h : n ≤ fuel) : bitLenAux fuel n = Nat.size n := by
  induction fuel generalizing n with
  | zero =>
    have hn : n = 0 := by omega
    subst hn
    simp [bitLenAux, Nat.size_zero]
  | succ fuel ih =>
    cases n with
    | zero => simp [bitLenAux, Nat.size_zero]
    | succ m =>
      rw [show bitLenAux (fuel + 1) (m + 1) = bitLenAux fuel ((m + 1) / 2) + 1 from rfl,
        ih ((m + 1) / 2) (by omega)]
      exact (size_eq_size_div_two (m + 1) (by omega)).symm

theorem bits_for_eq_size (n : Nat) : bits_for n = Nat.size n :=
  bitLenAux_eq_size n n (Nat.le_refl n)

theorem lmfc_width_two_pow (k : Nat) : lmfc_width (2 ^ k) = k := by
  rw [lmfc_width, bits_for_eq_size]
  cases k with
  | zero => simp [Nat.size_zero]
  | succ k =>
    apply Nat.le_antisymm
    · apply Nat.size_le.mpr
      have : 0 < (2 : Nat) ^ (k + 1) := Nat.pos_pow_of_pos _ (by norm_num)
      omega
    · have hs : (2 : Nat) ^ (k + 1) = 2 * 2 ^ k := by
        rw [Nat.pow_succ]
        ring
      have hp : 0 < (2 : Nat) ^ k := Nat.pos_pow_of_pos _ (by norm_num)
      have h2k : (2 : Nat) ^ k ≤ 2 ^ (k + 1) - 1 := by omega
      have := Nat.lt_size.mpr h2k
      omega

/-- C5 (amended): `lmfc_cycles = K // FR_CLK` rounded down; construction
succeeds for every quotient of at least 2 — also on an inexact division —
and fails for quotient 0 (`ZeroDivisionError` in `load % lmfc_cycles`) and
for quotient 1 (the `min < max` bounds assertion of
`Signal(max=lmfc_cycles)`); with no jref pulse the count increments each
cycle modulo `2 ^ width` where `width = bits_for(lmfc_cycles - 1)` — equal
to `lmfc_cycles` itself exactly when `lmfc_cycles` is a power of two — and
`zero` is true iff the count is 0. -/
theorem lmfc_count (K FR_CLK load : Nat) (st : LMFCState) (jrefIn : Bool)
    (hnoj : st.jref1 = false) :
    (2 ≤ K / FR_CLK →
      mkLMFC K FR_CLK load = Except.ok (K / FR_CLK, load % (K / FR_CLK))) ∧
    (K / FR_CLK < 2 → ∃ e, mkLMFC K FR_CLK load = Except.error e) ∧
    (lmfcStep (K / FR_CLK) load st jrefIn).count =
      (st.count + 1) % 2 ^ lmfc_width (K / FR_CLK) ∧
    (lmfcZero st = true ↔ st.count = 0) ∧
    (∀ k, K / FR_CLK = 2 ^ k →
      (lmfcStep (K / FR_CLK) load st jrefIn).count = (st.count + 1) % (K / FR_CLK)) := by
  refine ⟨?_, ?_, ?_, ?_, ?_⟩
  · intro hquot
    simp only [mkLMFC]
    rw [if_neg (by omega), if_neg (by omega)]
  · intro hquot
    simp only [mkLMFC]
    have h01 : K / FR_CLK = 0 ∨ K / FR_CLK = 1 := by
      have hge : 0 ≤ K / FR_CLK := Nat.zero_le _
      omega
    rcases h01 with h0 | h1
    · rw [if_pos h0]
      exact ⟨_, rfl⟩
    · rw [if_neg (by omega), if_pos h1]
      exact ⟨_, rfl⟩
  · show (if st.jref1 && !st.jref2 then load else st.count + 1) %
        2 ^ lmfc_width (K / FR_CLK) = _
    rw [hnoj]
    simp
  · simp [lmfcZero]
  · intro k hk
    show (if st.jref1 && !st.jref2 then load else st.count + 1) %
        2 ^ lmfc_width (K / FR_CLK) = _
    rw [hnoj, hk, lmfc_width_two_pow]
    simp

theorem lmfc_count_witness :
    (2 ≤ 32 / 4 →
      mkLMFC 32 4 5 = Except.ok (32 / 4, 5 % (32 / 4))) ∧
    (32 / 4 < 2 → ∃ e, mkLMFC 32 4 5 = Except.error e) ∧
    (lmfcStep (32 / 4) 5 ⟨3, false, false⟩ false).count =
      (3 + 1) % 2 ^ lmfc_width (32 / 4) ∧
    (lmfcZero ⟨3, false, false⟩ = true ↔ (3 : Nat) = 0) ∧
    (∀ k, 32 / 4 = 2 ^ k →
      (lmfcStep (32 / 4) 5 ⟨3, false, false⟩ false).count = (3 + 1) % (32 / 4)) :=
  lmfc_count 32 4 5 ⟨3, false, false⟩ false rfl

/-- C5 counterexample: `LMFC` does not raise a configuration error on an
inexact `K / FR_CLK` (10 // 4 = 2 and construction succeeds) and does not
count modulo `lmfc_cycles`: with `lmfc_cycles = 6` the counter at 5 steps
to 6 (mod 8), not to (5+1) % 6 = 0; and at quotient 1 (6 // 4) construction
fails on the `Signal(max=1)` bounds assertion rather than on inexactness. -/
theorem lmfc_claim_cx :
    mkLMFC 10 4 0 = Except.ok (2, 0) ∧ 10 % 4 ≠ 0 ∧
    mkLMFC 6 4 0 = Except.error "AssertionError" ∧
    mkLMFC 24 4 0 = Except.ok (6, 0) ∧
    (lmfcStep 6 0 ⟨5, false, false⟩ false).count = 6 ∧
    (5 + 1) % 6 = 0 ∧ (6 : Nat) ≠ 0 := by
  refine ⟨rfl, by decide, rfl, rfl, by decide, by decide, by decide⟩

theorem foldl_and_eq (xs : List Bool) : ∀ x, xs.foldl (· && ·) x = (x && xs.all id) := by
  induction xs with
  | nil =>
    intro x
    simp
  | cons y ys ih =>
    intro x
    simp [List.foldl_cons, ih, Bool.and_assoc]

theorem andAll_eq_true (l : List Bool) : andAll l = true ↔ ∀ b ∈ l, b = true := by
  cases l with
  | nil => simp [andAll]
  | cons x xs =>
    rw [show andAll (x :: xs) = xs.foldl (· && ·) x from rfl, foldl_and_eq]
    simp [List.all_eq_true]

/-- C6 (amended): the RX core's aggregate `ready` register is loaded from the
AND of the per-lane `ready` signals only on LMFC-zero cycles and holds
otherwise, while the aggregate `jsync` register is re-loaded from the AND of
the per-lane `jsync` signals on every cycle. -/
theorem rx_aggregate_status (linkJsync linkReady : List Bool) (zero : Bool)
    (st : Bool × Bool) :
    ((rxAggStep linkJsync linkReady zero st).1 = true ↔ ∀ b ∈ linkJsync, b = true) ∧
    (zero = true →
      ((rxAggStep linkJsync linkReady zero st).2 = true ↔ ∀ b ∈ linkReady, b = true)) ∧
    (zero = false → (rxAggStep linkJsync linkReady zero st).2 = st.2) := by
  refine ⟨?_, ?_, ?_⟩
  · rw [rxAggStep]
    exact andAll_eq_true linkJsync
  · intro hz
    rw [rxAggStep]
    simp only [hz, if_pos rfl]
    exact andAll_eq_true linkReady
  · intro hz
    rw [rxAggStep]
    simp [hz]

theorem rx_aggregate_status_witness :
    ((rxAggStep [true, false] [true, true] true (false, false)).1 = true ↔
      ∀ b ∈ [true, false], b = true) ∧
    ((rxAggStep [true, false] [true, true] true (false, false)).2 = true ↔
      ∀ b ∈ [true, true], b = true) :=
  ⟨(rx_aggregate_status [true, false] [true, true] true (false, false)).1,
   (rx_aggregate_status [true, false] [true, true] true (false, false)).2.1 rfl⟩

/-- C6 counterexample: on a cycle with `lmfc.zero` low, the aggregate `jsync`
register still updates (from held `true` to `false` here), contradicting the
claim that both aggregate registers are sampled only on LMFC-zero cycles. -/
theorem rx_aggregate_status_cx :
    (rxAggStep [false] [true] false (true, true)).1 = false ∧
    (true, (true : Bool)).1 = true ∧ (false : Bool) ≠ true :=
  ⟨rfl, rfl, by decide⟩

end LiteJESD

namespace LiteJESD

theorem getD_map_data (l : List Nat) (k : Nat) :
    (l.map ILASOctet.data).getD k (ILASOctet.data 0) = ILASOctet.data (l.getD k 0) := by
  simp only [List.getD_eq_getElem?_getD, List.getElem?_map]
  cases l[k]? <;> simp

/-- The multiframes other than multiframe 1: counter ramp with R and A at the
two ends. -/
theorem ilasMultiframe_ne_one (opm : Nat) (cfg : List Nat) (i : Nat)
    (hi : i ≠ 1) (hopm : 2 ≤ opm) :
    (ilasMultiframe opm cfg i).length = opm ∧
    ∀ j, j < opm →
      (ilasMultiframe opm cfg i).getD j (ILASOctet.data 0) =
        if j = 0 then ILASOctet.ctrl (control_characters "R")
        else if j = opm - 1 then ILASOctet.ctrl (control_characters "A")
        else ILASOctet.data ((i * opm + j) % 256) := by
  rw [ilasMultiframe, if_neg hi]
  simp only [List.length_set, List.length_map, List.length_range]
  refine ⟨trivial, ?_⟩
  intro j hj
  by_cases hj0 : j = 0
  · subst hj0
    rw [getD_set_ne _ _ _ _ _ (by omega), getD_set_self _ _ _ _ (by simp; omega)]
    simp
  · by_cases hjl : j = opm - 1
    · subst hjl
      rw [getD_set_self _ _ _ _ (by simp; omega)]
      simp [hj0]
    · rw [getD_set_ne _ _ _ _ _ (by omega), getD_set_ne _ _ _ _ _ (by omega),
        getD_range_map _ _ _ _ hj]
      simp [hj0, hjl]

/-- Multiframe 1: R, Q, the 14 settings octets, counter ramp, A — provided the
multiframe is at least 17 octets long. -/
theorem ilasMultiframe_one (opm : Nat) (cfg : List Nat)
    (hcfg : cfg.length = 14) (hopm : 17 ≤ opm) :
    (ilasMultiframe opm cfg 1).length = opm ∧
    ∀ j, j < opm →
      (ilasMultiframe opm cfg 1).getD j (ILASOctet.data 0) =
        if j = 0 then ILASOctet.ctrl (control_characters "R")
        else if j = 1 then ILASOctet.ctrl (control_characters "Q")
        else if j < 16 then ILASOctet.data (cfg.getD (j - 2) 0)
        else if j = opm - 1 then ILASOctet.ctrl (control_characters "A")
        else ILASOctet.data ((opm + j) % 256) := by
  rw [ilasMultiframe, if_pos rfl]
  simp only [List.length_set, List.length_map, List.length_range]
  set base := ((((List.range opm).map fun j => ILASOctet.data ((1 * opm + j) % 256)).set 0
    (ILASOctet.ctrl (control_characters "R"))).set (opm - 1)
    (ILASOctet.ctrl (control_characters "A"))).set 1
    (ILASOctet.ctrl (control_characters "Q")) with hbase
  have hbaselen : base.length = opm := by
    rw [hbase]
    simp
  have hbaseget : ∀ j, j < opm →
      base.getD j (ILASOctet.data 0) =
        if j = 0 then ILASOctet.ctrl (control_characters "R")
        else if j = 1 then ILASOctet.ctrl (control_characters "Q")
        else if j = opm - 1 then ILASOctet.ctrl (control_characters "A")
        else ILASOctet.data ((1 * opm + j) % 256) := by
    intro j hj
    rw [hbase]
    by_cases hj1 : j = 1
    · subst hj1
      rw [getD_set_self _ _ _ _ (by simp; omega)]
      simp
    · rw [getD_set_ne _ _ _ _ _ hj1]
      by_cases hjl : j = opm - 1
      · subst hjl
        rw [getD_set_self _ _ _ _ (by simp; omega)]
        rw [if_neg (by omega), if_neg hj1, if_pos rfl]
      · rw [getD_set_ne _ _ _ _ _ hjl]
        by_cases hj0 : j = 0
        · subst hj0
          rw [getD_set_self _ _ _ _ (by simp; omega)]
          simp
        · rw [getD_set_ne _ _ _ _ _ hj0, getD_range_map _ _ _ _ hj]
          simp [hj0, hj1, hjl]
  have htklen : (base.take 2).length = 2 := by
    simp [hbaselen]
    omega
  have hmaplen : (cfg.map ILASOctet.data).length = 14 := by
    simp [hcfg]
  have hlen : (base.take 2 ++ cfg.map ILASOctet.data ++ base.drop (2 + cfg.length)).length
      = opm := by
    simp [hbaselen, hcfg]
    omega
  refine ⟨hlen, ?_⟩
  intro j hj
  by_cases hj2 : j < 2
  · rw [getD_append_left _ _ _ _ (by rw [List.length_append, htklen, hmaplen]; omega),
      getD_append_left _ _ _ _ (by rw [htklen]; omega), getD_take _ _ _ _ hj2,
      hbaseget j (by omega)]
    by_cases hj0 : j = 0
    · simp [hj0]
    · have hj1 : j = 1 := by omega
      simp [hj0, hj1]
  · by_cases hj16 : j < 16
    · have hassoc : base.take 2 ++ cfg.map ILASOctet.data ++ base.drop (2 + cfg.length) =
          base.take 2 ++ (cfg.map ILASOctet.data ++ base.drop (2 + cfg.length)) := by
        rw [List.append_assoc]
      have hL : (base.take 2 ++ cfg.map ILASOctet.data ++
          base.drop (2 + cfg.length)).getD j (ILASOctet.data 0) =
          ILASOctet.data (cfg.getD (j - 2) 0) := by
        calc (base.take 2 ++ cfg.map ILASOctet.data ++
            base.drop (2 + cfg.length)).getD j (ILASOctet.data 0)
            = (base.take 2 ++ (cfg.map ILASOctet.data ++
                base.drop (2 + cfg.length))).getD j (ILASOctet.data 0) := by rw [hassoc]
          _ = (base.take 2 ++ (cfg.map ILASOctet.data ++
                base.drop (2 + cfg.length))).getD ((base.take 2).length + (j - 2))
                (ILASOctet.data 0) := by
              rw [htklen]
              congr 1
              omega
          _ = (cfg.map ILASOctet.data ++ base.drop (2 + cfg.length)).getD (j - 2)
                (ILASOctet.data 0) := getD_append_right _ _ _ _
          _ = (cfg.map ILASOctet.data).getD (j - 2) (ILASOctet.data 0) :=
              getD_append_left _ _ _ _ (by rw [hmaplen]; omega)
          _ = ILASOctet.data (cfg.getD (j - 2) 0) := getD_map_data _ _
      rw [hL, if_neg (by omega : ¬ j = 0), if_neg (by omega : ¬ j = 1), if_pos hj16]
    · have hL : (base.take 2 ++ cfg.map ILASOctet.data ++
          base.drop (2 + cfg.length)).getD j (ILASOctet.data 0) =
          base.getD j (ILASOctet.data 0) := by
        have h16len : (base.take 2 ++ cfg.map ILASOctet.data).length = 16 := by
          rw [List.length_append, htklen, hmaplen]
        calc (base.take 2 ++ cfg.map ILASOctet.data ++
            base.drop (2 + cfg.length)).getD j (ILASOctet.data 0)
            = (base.take 2 ++ cfg.map ILASOctet.data ++
                base.drop (2 + cfg.length)).getD
                ((base.take 2 ++ cfg.map ILASOctet.data).length + (j - 16))
                (ILASOctet.data 0) := by
              rw [h16len]
              congr 1
              omega
          _ = (base.drop (2 + cfg.length)).getD (j - 16) (ILASOctet.data 0) :=
              getD_append_right _ _ _ _
          _ = base.getD (2 + cfg.length + (j - 16)) (ILASOctet.data 0) := getD_drop _ _ _ _
          _ = base.getD j (ILASOctet.data 0) := by
              rw [hcfg]
              congr 1
              omega
      rw [hL, hbaseget j hj,
        if_neg (by omega : ¬ j = 0), if_neg (by omega : ¬ j = 1),
        if_neg (by omega : ¬ j = 0), if_neg (by omega : ¬ j = 1),
        if_neg (by omega : ¬ j < 16)]
      by_cases hjl : j = opm - 1
      · rw [if_pos hjl, if_pos hjl]
      · rw [if_neg hjl, if_neg hjl, Nat.one_mul]

end LiteJESD

namespace LiteJESD

/-- C7 (amended): for a settings register serialized to 14 octets and an
octets-per-multiframe `F*K` of at least 17, the ILAS table is the four
multiframes in order; multiframes 0, 2 and 3 are the ramp `(global octet
index) mod 256` with octet 0 replaced by `R` and the final octet by `A`;
multiframe 1 is `R`, `Q`, the 14 settings octets, the continued ramp, and a
final `A`.  For `F*K = 16` the settings octets overwrite multiframe 1's final
`A`, hence the size bound. -/
theorem ilas_table_structure (F K : Nat) (cfg : List Nat)
    (hcfg : cfg.length = 14) (hopm : 17 ≤ F * K) :
    (ilasOctets (F * K) cfg =
      ilasMultiframe (F * K) cfg 0 ++ (ilasMultiframe (F * K) cfg 1 ++
        (ilasMultiframe (F * K) cfg 2 ++ ilasMultiframe (F * K) cfg 3))) ∧
    (∀ i, i = 0 ∨ i = 2 ∨ i = 3 →
      (ilasMultiframe (F * K) cfg i).length = F * K ∧
      ∀ j, j < F * K →
        (ilasMultiframe (F * K) cfg i).getD j (ILASOctet.data 0) =
          if j = 0 then ILASOctet.ctrl (control_characters "R")
          else if j = F * K - 1 then ILASOctet.ctrl (control_characters "A")
          else ILASOctet.data ((i * (F * K) + j) % 256)) ∧
    (ilasMultiframe (F * K) cfg 1).length = F * K ∧
    ∀ j, j < F * K →
      (ilasMultiframe (F * K) cfg 1).getD j (ILASOctet.data 0) =
        if j = 0 then ILASOctet.ctrl (control_characters "R")
        else if j = 1 then ILASOctet.ctrl (control_characters "Q")
        else if j < 16 then ILASOctet.data (cfg.getD (j - 2) 0)
        else if j = F * K - 1 then ILASOctet.ctrl (control_characters "A")
        else ILASOctet.data ((F * K + j) % 256) := by
  refine ⟨?_, ?_, (ilasMultiframe_one (F * K) cfg hcfg hopm).1,
    (ilasMultiframe_one (F * K) cfg hcfg hopm).2⟩
  · rw [ilasOctets, show (4 : Nat) = 3 + 1 from rfl, List.range_succ,
      show (3 : Nat) = 2 + 1 from rfl, List.range_succ,
      show (2 : Nat) = 1 + 1 from rfl, List.range_succ,
      show (1 : Nat) = 0 + 1 from rfl, List.range_succ, List.range_zero]
    simp [List.flatMap_append]
  · intro i hi
    exact ilasMultiframe_ne_one (F * K) cfg i (by omega) (by omega)

theorem ilas_table_structure_witness :
    (ilasMultiframe (2 * 16) c7octets 1).getD 0 (ILASOctet.data 0) =
      ILASOctet.ctrl (control_characters "R") := by
  have h := (ilas_table_structure 2 16 c7octets (by decide) (by decide)).2.2.2 0 (by decide)
  simpa using h

/-- C7 counterexample: with the valid configuration L=2, M=1, S=1, N=16,
NP=16, K=16, F=1 (so F*K = 16), the final octet of ILAS multiframe 1 is the
14th settings octet as a data octet, not the control character `A`: the
settings splice overwrites the trailing `A`. -/
theorem ilas_table_cx :
    1 * 1 * 16 = 8 * (2 * 1) ∧
    c7octets.length = 14 ∧
    (ilasMultiframe (1 * 16) c7octets 1).length = 16 ∧
    (ilasMultiframe (1 * 16) c7octets 1).getD (1 * 16 - 1) (ILASOctet.data 0) =
      ILASOctet.data 56 ∧
    (ilasMultiframe (1 * 16) c7octets 1).getD (1 * 16 - 1) (ILASOctet.data 0) ≠
      ILASOctet.ctrl (control_characters "A") := by
  refine ⟨by decide, by decide, by decide, by decide, by decide⟩

end LiteJESD
